import Mathlib

/-!
Verification of the SYCL histogram updater (plugin/sycl/tree/hist_updater.cc).

Numeric values (gradients, Hessians, gains, cut values) are modelled with
exact integer arithmetic: the updater itself combines them only through
addition, subtraction and order comparisons (all division and the gain
formulas live in the external evaluator), so ℤ is an exact carrier that the
kernel can evaluate.  Device-parallel kernels are
sequentialized: the atomic compaction counters process rows in row-index
order, and the racing sub-group updates of a shared best-split entry are
applied in lane-id (local id) order.  These sequentializations are noted at
each definition they affect.
-/

namespace HistUpdater

/-- Numeric type standing for the GradientSumT instantiations (float/double)
of the updater; modelled exactly. -/
abbrev GradT := ℤ

/-- Pair of accumulated gradient and Hessian sums.
Modelled from the spec: GradStats is declared in the updater's header, which
is not under src; the spec's data model calls it "an accumulating
(sum-gradient, sum-Hessian) pair". -/
structure GradStats where
  sum_grad : GradT
  sum_hess : GradT
  deriving Repr, DecidableEq

def GradStats.GetGrad (s : GradStats) : GradT := s.sum_grad

def GradStats.GetHess (s : GradStats) : GradT := s.sum_hess

instance : Zero GradStats := ⟨⟨0, 0⟩⟩

instance : Add GradStats := ⟨fun a b => ⟨a.sum_grad + b.sum_grad, a.sum_hess + b.sum_hess⟩⟩

instance : Sub GradStats := ⟨fun a b => ⟨a.sum_grad - b.sum_grad, a.sum_hess - b.sum_hess⟩⟩

/-- The in-place accumulation sum.Add(grad, hess) used by the kernels. -/
def GradStats.Add (s : GradStats) (g h : GradT) : GradStats :=
  ⟨s.sum_grad + g, s.sum_hess + h⟩

/-- Per-row gradient pair produced by the loss computation (read-only input). -/
structure GradientPair where
  grad : GradT
  hess : GradT
  deriving Repr, DecidableEq

def GradientPair.GetGrad (p : GradientPair) : GradT := p.grad

def GradientPair.GetHess (p : GradientPair) : GradT := p.hess

instance : Inhabited GradientPair := ⟨⟨0, 0⟩⟩

/-- Best-split record per node (or node-feature candidate).
Modelled from the spec: SplitEntry is declared in the updater's header, which
is not under src; the spec's data model lists the fields
{loss_gain, feature id, split threshold, default-missing direction,
left-sum, right-sum}.  The default-missing direction is kept as the high bit
of sindex, exposed through SplitIndex. -/
structure SplitEntry where
  loss_chg : GradT
  sindex : ℕ
  split_value : GradT
  left_sum : GradStats
  right_sum : GradStats
  deriving Repr, DecidableEq

/-- A freshly constructed SplitEntry: zero gain, feature index 0. -/
def SplitEntry.init : SplitEntry := ⟨0, 0, 0, ⟨0, 0⟩, ⟨0, 0⟩⟩

instance : Inhabited SplitEntry := ⟨SplitEntry.init⟩

/-- Feature id of the recorded candidate (sindex with the direction bit
masked off). -/
def SplitEntry.SplitIndex (s : SplitEntry) : ℕ := s.sindex % 2 ^ 31

/-- Modelled from the spec: the comparison/merge rule of the Best Split
Entry, declared in the updater's header (not under src).  The spec states
"strictly greater loss_gain wins; on exact tie, the candidate with the
lexicographically smaller feature id wins". -/
def SplitEntry.NeedReplace (s : SplitEntry) (new_loss_chg : GradT) (split_index : ℕ) : Bool :=
  decide (s.loss_chg < new_loss_chg) ||
    (decide (new_loss_chg = s.loss_chg) && decide (split_index < s.SplitIndex))

/-- Merge another SplitEntry into this one (the comparator applied to a
complete candidate record). -/
def SplitEntry.Update (s e : SplitEntry) : SplitEntry :=
  if s.NeedReplace e.loss_chg e.SplitIndex then e else s

/-- Merge a raw candidate (as produced inside EnumerateSplit) into this
entry; on success the direction bit is folded into sindex. -/
def SplitEntry.UpdateCand (s : SplitEntry) (new_loss_chg : GradT) (split_index : ℕ)
    (new_split_value : GradT) (default_left : Bool)
    (left right : GradStats) : SplitEntry :=
  if s.NeedReplace new_loss_chg split_index then
    { loss_chg := new_loss_chg,
      sindex := if default_left then split_index + 2 ^ 31 else split_index,
      split_value := new_split_value,
      left_sum := left,
      right_sum := right }
  else s

/-- Per-node statistics entry.
Modelled from the spec: NodeEntry is declared in the updater's header (not
under src); the spec's data model lists {sum_grad, sum_hess, weight,
root_gain, best_split}. -/
structure NodeEntry where
  stats : GradStats
  root_gain : GradT
  weight : GradT
  best : SplitEntry
  deriving Repr, DecidableEq

/-- NodeEntry(param): empty stats, zero gain and weight, default best. -/
def NodeEntry.init : NodeEntry := ⟨⟨0, 0⟩, 0, 0, SplitEntry.init⟩

instance : Inhabited NodeEntry := ⟨NodeEntry.init⟩

/-- The externally supplied split evaluator; the spec says this core treats
it as a pure, side-effect-free black box, so it is a record of functions. -/
structure SplitEvaluator where
  CalcSplitGain : ℕ → ℕ → GradStats → GradStats → GradT
  CalcWeight : ℕ → GradStats → GradT
  CalcGain : ℕ → GradStats → GradT

/-! ## EnumerateSplit -/

/-- The inputs of HistUpdater::EnumerateSplit other than the sub-group and
the in/out best entry: cut pointers, cut values, the node's histogram for
this feature, the node statistics entry, the feature and node ids, the
evaluator and the minimum child weight. -/
structure EnumCtx where
  cut_ptr : ℕ → ℕ
  cut_val : ℕ → GradT
  hist_data : ℕ → GradStats
  snode : NodeEntry
  fid : ℕ
  nodeID : ℕ
  evaluator : SplitEvaluator
  min_child_weight : GradT

/-- ibegin = cut_ptr[fid]. -/
def EnumCtx.ibegin (c : EnumCtx) : ℕ := c.cut_ptr c.fid

/-- iend = cut_ptr[fid + 1]. -/
def EnumCtx.iend (c : EnumCtx) : ℕ := c.cut_ptr (c.fid + 1)

/-- Sum of hist_data over the bin range [a, a + n). -/
def histSum (hist : ℕ → GradStats) (a : ℕ) : ℕ → GradStats
  | 0 => 0
  | n + 1 => histSum hist a n + hist (a + n)

/-- Scalar inclusive-scan value: the sum of f over [a, a + n); lane l of an
inclusive_scan_over_group whose lane j contributes f (a + j) receives the
value for n = l + 1. -/
def prefScan (f : ℕ → GradT) (a : ℕ) : ℕ → GradT
  | 0 => 0
  | n + 1 => prefScan f a n + f (a + n)

/-- The serial catch-up loop: starting from s, Add the grad/hess of
hist_data[j] for j in [a, a + n) one at a time. -/
def addRange (hist : ℕ → GradStats) (s : GradStats) (a : ℕ) : ℕ → GradStats
  | 0 => s
  | n + 1 => (addRange hist s a n).Add (hist (a + n)).GetGrad (hist (a + n)).GetHess

/-- The body guarded by the min_child_weight checks at a candidate position
i, with the running sum already including bin i: compute the complement
c = snode.stats - sum, the loss change, and merge the candidate into best. -/
def enumCheck (c : EnumCtx) (best : SplitEntry) (sum : GradStats) (i : ℕ) : SplitEntry :=
  if c.min_child_weight ≤ sum.GetHess then
    let comp := c.snode.stats - sum
    if c.min_child_weight ≤ comp.GetHess then
      let loss_chg :=
        c.evaluator.CalcSplitGain c.nodeID c.fid sum comp - c.snode.root_gain
      let split_pt := c.cut_val i
      best.UpdateCand loss_chg c.fid split_pt false sum comp
    else best
  else best

/-- Private state of one sub-group lane: its running sum and its local best. -/
structure LaneState where
  sum : GradStats
  best : SplitEntry
  deriving Repr, DecidableEq

def LaneState.init : LaneState := ⟨⟨0, 0⟩, SplitEntry.init⟩

/-- One loop iteration of lane l for the chunk starting at bin `base`:
if the lane's position i = base + l is in range, add the inclusive-scan
values (the scan runs over the lanes of the sub-group, lane j contributing
hist_data[base + j]), run the candidate check, and, unless this is the
lane's last iteration, serially catch up over the rest of the chunk
[i + 1, min(base + sub_group_size, iend)). -/
def chunkLane (c : EnumCtx) (sub_group_size base l : ℕ) (st : LaneState) : LaneState :=
  let i := base + l
  if i < c.iend then
    let sum1 := st.sum.Add
      (prefScan (fun j => (c.hist_data j).GetGrad) base (l + 1))
      (prefScan (fun j => (c.hist_data j).GetHess) base (l + 1))
    let best1 := enumCheck c st.best sum1 i
    let last_iter := c.iend ≤ i + sub_group_size
    if last_iter then ⟨sum1, best1⟩
    else
      let e := min (base + sub_group_size) c.iend
      ⟨addRange c.hist_data sum1 (i + 1) (e - (i + 1)), best1⟩
  else st

/-- One chunk of the strided loop, advancing every lane of the sub-group in
lockstep. -/
def chunkStep (c : EnumCtx) (sub_group_size base : ℕ)
    (sts : ℕ → LaneState) : ℕ → LaneState :=
  fun l => chunkLane c sub_group_size base l (sts l)

/-- Iterate n chunks starting at bin `base`. -/
def enumChunks (c : EnumCtx) (sub_group_size : ℕ) :
    ℕ → ℕ → (ℕ → LaneState) → (ℕ → LaneState)
  | 0, _, sts => sts
  | n + 1, base, sts =>
      enumChunks c sub_group_size n (base + sub_group_size)
        (chunkStep c sub_group_size base sts)

/-- Number of chunks the strided loop performs: ceil((iend - ibegin) / sgs). -/
def numChunks (c : EnumCtx) (sub_group_size : ℕ) : ℕ :=
  (c.iend - c.ibegin + sub_group_size - 1) / sub_group_size

/-- Final lane states after the whole strided loop of EnumerateSplit. -/
def enumLanes (c : EnumCtx) (sub_group_size : ℕ) : ℕ → LaneState :=
  enumChunks c sub_group_size (numChunks c sub_group_size) c.ibegin
    (fun _ => LaneState.init)

/-- The lanes' local best entries, in lane-id order. -/
def laneBests (c : EnumCtx) (sub_group_size : ℕ) : List SplitEntry :=
  (List.range sub_group_size).map (fun l => (enumLanes c sub_group_size l).best)

/-- reduce_over_group with maximum over the lanes' values. -/
def reduceMax (l : List GradT) : GradT :=
  match l with
  | [] => 0
  | x :: xs => xs.foldl max x

/-- reduce_over_group with minimum over the lanes' values. -/
def reduceMin (l : List ℕ) : ℕ :=
  match l with
  | [] => 0
  | x :: xs => xs.foldl min x

/-- HistUpdater::EnumerateSplit.  After the strided loop, the sub-group
reduces the maximum loss change, then the minimum split index among the
lanes achieving it (other lanes contributing the sentinel (1 << 31) - 1),
and every lane whose best matches both updates the shared p_best.  The
concurrent p_best updates are sequentialized in lane-id order. -/
def EnumerateSplit (c : EnumCtx) (sub_group_size : ℕ) (p_best : SplitEntry) : SplitEntry :=
  let bests := laneBests c sub_group_size
  let total_loss_chg := reduceMax (bests.map (·.loss_chg))
  let total_split_index := reduceMin (bests.map (fun b =>
    if b.loss_chg = total_loss_chg then b.SplitIndex else 2 ^ 31 - 1))
  bests.foldl (fun pb b =>
    if b.loss_chg = total_loss_chg ∧ b.SplitIndex = total_split_index
    then pb.Update b else pb) p_best

/-! ## EvaluateSplits -/

/-- A (node id, feature id) pair surviving column sampling and interaction
constraints; the histogram pointer of the source's SplitQuery is recovered
from the node id. -/
structure SplitQuery where
  nid : ℕ
  fid : ℕ
  deriving Repr, DecidableEq

/-- The EnumCtx a query gives rise to inside the EvaluateSplits kernel:
hist = hist_[nid], snode = snode[nid]. -/
def mkCtx (cut_ptr : ℕ → ℕ) (cut_val : ℕ → GradT) (hists : ℕ → ℕ → GradStats)
    (snode : List NodeEntry) (evaluator : SplitEvaluator)
    (min_child_weight : GradT) (q : SplitQuery) : EnumCtx :=
  ⟨cut_ptr, cut_val, hists q.nid, snode.getD q.nid NodeEntry.init,
   q.fid, q.nid, evaluator, min_child_weight⟩

/-- HistUpdater::EvaluateSplits, given the query list the column sampler and
interaction constraints produced.  Each query's best_splits slot is
initialized to snode[nid].best and refined by EnumerateSplit against the
snapshot of snode taken before the kernel; the per-node merge loop then
folds every slot into snode[nid].best with the SplitEntry comparator. -/
def EvaluateSplits (snode : List NodeEntry) (queries : List SplitQuery)
    (cut_ptr : ℕ → ℕ) (cut_val : ℕ → GradT) (hists : ℕ → ℕ → GradStats)
    (evaluator : SplitEvaluator) (min_child_weight : GradT)
    (sub_group_size : ℕ) : List NodeEntry :=
  let best_splits := queries.map (fun q =>
    EnumerateSplit (mkCtx cut_ptr cut_val hists snode evaluator min_child_weight q)
      sub_group_size (snode.getD q.nid NodeEntry.init).best)
  (queries.zip best_splits).foldl
    (fun sn qb =>
      let old := sn.getD qb.1.nid NodeEntry.init
      sn.set qb.1.nid { old with best := old.best.Update qb.2 })
    snode

/-! ## Sampling and InitData -/

/-- Training parameters consumed by InitData (the fields the updater reads). -/
inductive GrowPolicy where
  | kDepthWise
  | kLossGuide
  deriving Repr, DecidableEq

inductive SamplingMethod where
  | kUniform
  | kGradientBased
  deriving Repr, DecidableEq

structure TrainParam where
  max_depth : ℕ
  max_leaves : ℕ
  grow_policy : GrowPolicy
  subsample : ℚ
  sampling_method : SamplingMethod
  min_child_weight : GradT
  deriving Repr, DecidableEq

/-- The atomic-fetch-and-increment compaction pattern shared by the
InitSampling kernel and the negative-Hessian compaction kernel of InitData:
rows i < n satisfying p are written at consecutive positions of the buffer
(whose prior contents are arbitrary), and the buffer is then resized to the
final counter value.  The concurrent increments are sequentialized in
row-index order.  Returns (resized buffer, final counter). -/
def compactKept (p : ℕ → Bool) (n : ℕ) (buf0 : List ℕ) : List ℕ × ℕ :=
  let r := (List.range n).foldl
    (fun (bc : List ℕ × ℕ) i => if p i then (bc.1.set bc.2 i, bc.2 + 1) else bc)
    (buf0, 0)
  (r.1.take r.2, r.2)

/-- HistUpdater::InitSampling.  The Bernoulli(subsample) draw of row i from
the counter-based engine seeded with (seed, i) is modelled by the oracle
rnd subsample seed i (the oneapi RNG is an external library).  A row is kept
when its Hessian is nonnegative and its draw succeeds; kept rows are
compacted into the row-index buffer via the atomic counter and the buffer is
resized to the exact count.  The member seed counter advances by num_rows.
Returns (new row indices, new seed). -/
def InitSampling (rnd : ℚ → ℕ → ℕ → Bool) (seed : ℕ) (subsample : ℚ)
    (gpair : List GradientPair) (row_indices : List ℕ) : List ℕ × ℕ :=
  let num_rows := row_indices.length
  let kept := compactKept
    (fun i => decide (0 ≤ (gpair.getD i default).GetHess) && rnd subsample seed i)
    num_rows row_indices
  (kept.1, seed + num_rows)

/-- The row-set initialization of HistUpdater::InitData: the configuration
checks, then either the subsampling path (subsample < 1, uniform only) or
the full-row path, which writes row i at position i and compacts only when
some row has a negative Hessian.  Returns (row indices, new seed counter) or
the text of the violated check. -/
def initDataRowSet (param : TrainParam) (rnd : ℚ → ℕ → ℕ → Bool) (seed : ℕ)
    (gpair : List GradientPair) (num_row : ℕ) : Except String (List ℕ × ℕ) :=
  if ¬(0 < param.max_depth ∨ 0 < param.max_leaves) then
    .error "max_depth or max_leaves cannot be both 0 (unlimited); at least one should be a positive quantity."
  else if param.grow_policy = GrowPolicy.kDepthWise ∧ ¬0 < param.max_depth then
    .error "max_depth cannot be 0 (unlimited) when grow_policy is depthwise."
  else if param.subsample < 1 then
    if param.sampling_method ≠ SamplingMethod.kUniform then
      .error "Only uniform sampling is supported, gradient-based sampling is only support by GPU Hist."
    else
      .ok (InitSampling rnd seed param.subsample gpair (List.range num_row))
  else
    let base := List.range num_row
    let has_neg_hess := base.any (fun i => decide ((gpair.getD i default).GetHess < 0))
    if has_neg_hess then
      .ok ((compactKept (fun i => decide (0 ≤ (gpair.getD i default).GetHess)) num_row base).1,
           seed)
    else
      .ok (base, seed)

/-- The data-layout discrimination of InitData. -/
inductive DataLayout where
  | kDenseDataZeroBased
  | kDenseDataOneBased
  | kSparseData
  deriving Repr, DecidableEq

/-- InitData's layout detection from (num_row, num_col, num_nonzero) and the
bin count of feature 0. -/
def detectLayout (nrow ncol nnz nbins_f0 : ℕ) : DataLayout :=
  if nrow * ncol = nnz then DataLayout.kDenseDataZeroBased
  else if nbins_f0 = 0 ∧ nrow * (ncol - 1) = nnz then DataLayout.kDenseDataOneBased
  else DataLayout.kSparseData

/-- InitData's choice, on dense layouts, of the feature with the least
positive number of discrete bins: scan the features in order, remembering
the first feature attaining the running minimum positive bin count.
Returns (min_nbins_per_feature, fid_least_bins) with 0 meaning unset. -/
def fidLeastBins (row_ptr : ℕ → ℕ) (nfeature : ℕ) : ℕ × ℕ :=
  (List.range nfeature).foldl
    (fun (mf : ℕ × ℕ) i =>
      let nbins := row_ptr (i + 1) - row_ptr i
      if 0 < nbins then
        if mf.1 = 0 ∨ nbins < mf.1 then (nbins, i) else mf
      else mf)
    (0, 0)

/-! ## InitNewNode -/

/-- The queries InitNewNode makes against the external tree structure for
one node: whether it is the root, its parent id and whether it is the left
child of that parent. -/
structure TreeNode where
  parent : ℕ
  is_left_child : Bool
  is_root : Bool
  deriving Repr, DecidableEq

instance : Inhabited TreeNode := ⟨⟨0, false, true⟩⟩

/-- The external tree, as the per-node answers to the queries above;
NumNodes() is the length. -/
structure RegTreeModel where
  nodes : List TreeNode
  deriving Repr, DecidableEq

/-- std::vector::resize(n, d): keep the first n entries, pad with d. -/
def resizeList {α : Type} (l : List α) (n : ℕ) (d : α) : List α :=
  l.take n ++ List.replicate (n - l.length) d

/-- HistUpdater::InitNewNode.  snode is resized to the tree's node count
(new entries default-initialized).  For the root, the local aggregate comes
either from summing the root histogram over the bin range of
fid_least_bins (dense layouts) or from a reduction of the gradient pairs
over the node's row extent (sparse), and is then passed through the
collective all-reduce (modelled as the function allreduce; a single worker
is the identity).  For a non-root node the aggregate is copied from the
parent's recorded best-split left or right sum.  Weight and root gain are
then derived from the evaluator. -/
def InitNewNode (nid : ℕ) (tree : RegTreeModel) (snode : List NodeEntry)
    (data_layout : DataLayout) (fid_least_bins : ℕ) (row_ptr : ℕ → ℕ)
    (hist : ℕ → GradStats) (rows : List ℕ) (gpair : List GradientPair)
    (allreduce : GradStats → GradStats) (evaluator : SplitEvaluator) : List NodeEntry :=
  let sn := resizeList snode tree.nodes.length NodeEntry.init
  let node := tree.nodes.getD nid default
  let stats :=
    if node.is_root then
      let grad_stat :=
        if data_layout = DataLayout.kDenseDataZeroBased ∨
           data_layout = DataLayout.kDenseDataOneBased then
          let ib := row_ptr fid_least_bins
          let ie := row_ptr (fid_least_bins + 1)
          histSum hist ib (ie - ib)
        else
          rows.foldl
            (fun s r => s + (⟨(gpair.getD r default).GetGrad,
                             (gpair.getD r default).GetHess⟩ : GradStats))
            0
      allreduce grad_stat
    else
      let parent := (sn.getD node.parent NodeEntry.init)
      if node.is_left_child then parent.best.left_sum else parent.best.right_sum
  let parentid := node.parent
  let old := sn.getD nid NodeEntry.init
  sn.set nid { old with
    stats := stats,
    weight := evaluator.CalcWeight parentid stats,
    root_gain := evaluator.CalcGain parentid stats }

/-- Modelled from the spec: the histogram the external builder (BuildHist,
declared in common/hist_util.h, not under src) produces for one node and one
feature — "an accumulating (sum-gradient, sum-Hessian) pair per (node,
feature-bin)", populated by reduction over the node's row extent, each row
contributing its gradient pair to the bin its quantized value maps to. -/
def specHistogram (rows : List ℕ) (gpair : List GradientPair)
    (binOf : ℕ → ℕ) : ℕ → GradStats :=
  fun b =>
    (rows.filter (fun r => binOf r = b)).foldl
      (fun s r => s + (⟨(gpair.getD r default).GetGrad,
                       (gpair.getD r default).GetHess⟩ : GradStats))
      0

/-! ## Derived descriptions of the candidates EnumerateSplit considers -/

/-- The left sum at candidate position i: the inclusive prefix sum of the
histogram over bins [ibegin, i]. -/
def leftSumAt (c : EnumCtx) (i : ℕ) : GradStats :=
  histSum c.hist_data c.ibegin (i + 1 - c.ibegin)

/-- The right sum at candidate position i: node total minus left sum. -/
def rightSumAt (c : EnumCtx) (i : ℕ) : GradStats :=
  c.snode.stats - leftSumAt c i

/-- The loss change of candidate position i. -/
def lossGainAt (c : EnumCtx) (i : ℕ) : GradT :=
  c.evaluator.CalcSplitGain c.nodeID c.fid (leftSumAt c i) (rightSumAt c i) -
    c.snode.root_gain

/-- Eligibility of candidate position i: both child Hessian sums meet the
minimum child weight (inclusive). -/
def eligAt (c : EnumCtx) (i : ℕ) : Prop :=
  c.min_child_weight ≤ (leftSumAt c i).GetHess ∧
    c.min_child_weight ≤ (rightSumAt c i).GetHess

instance (c : EnumCtx) (i : ℕ) : Decidable (eligAt c i) := by
  unfold eligAt; infer_instance

/-- The complete candidate record at position i. -/
def entryAt (c : EnumCtx) (i : ℕ) : SplitEntry :=
  ⟨lossGainAt c i, c.fid, c.cut_val i, leftSumAt c i, rightSumAt c i⟩

/-- Processing of one candidate position by a lane, expressed with the
derived left sum. -/
def laneStep (c : EnumCtx) (b : SplitEntry) (i : ℕ) : SplitEntry :=
  enumCheck c b (leftSumAt c i) i

/-- A lane's local best after processing the positions of L in order. -/
def laneFold (c : EnumCtx) (L : List ℕ) : SplitEntry :=
  L.foldl (laneStep c) SplitEntry.init

/-- The in-range positions lane l visits during the first k chunks. -/
def lanePosUpto (c : EnumCtx) (sub_group_size l k : ℕ) : List ℕ :=
  ((List.range k).map (fun j => c.ibegin + j * sub_group_size + l)).filter
    (fun i => i < c.iend)

/-- All positions lane l visits. -/
def lanePositions (c : EnumCtx) (sub_group_size l : ℕ) : List ℕ :=
  lanePosUpto c sub_group_size l (numChunks c sub_group_size)

/-! ## Basic lemmas -/

theorem GradStats.eq_of (a b : GradStats) (h1 : a.sum_grad = b.sum_grad)
    (h2 : a.sum_hess = b.sum_hess) : a = b := by
  cases a; cases b; simp_all

@[simp] theorem GradStats.add_grad (a b : GradStats) :
    (a + b).sum_grad = a.sum_grad + b.sum_grad := rfl

@[simp] theorem GradStats.add_hess (a b : GradStats) :
    (a + b).sum_hess = a.sum_hess + b.sum_hess := rfl

@[simp] theorem GradStats.sub_grad (a b : GradStats) :
    (a - b).sum_grad = a.sum_grad - b.sum_grad := rfl

@[simp] theorem GradStats.sub_hess (a b : GradStats) :
    (a - b).sum_hess = a.sum_hess - b.sum_hess := rfl

@[simp] theorem GradStats.zero_grad : (0 : GradStats).sum_grad = 0 := rfl

@[simp] theorem GradStats.zero_hess : (0 : GradStats).sum_hess = 0 := rfl

theorem GradStats.add_zero (a : GradStats) : a + 0 = a :=
  GradStats.eq_of _ _ (by simp) (by simp)

theorem GradStats.zero_add (a : GradStats) : 0 + a = a :=
  GradStats.eq_of _ _ (by simp) (by simp)

theorem GradStats.addAssoc (a b c : GradStats) : a + b + c = a + (b + c) :=
  GradStats.eq_of _ _ (by simp [add_assoc]) (by simp [add_assoc])

theorem GradStats.Add_eq (s : GradStats) (g h : GradT) : s.Add g h = s + ⟨g, h⟩ := rfl

/-- The Add form of a whole GradStats value. -/
theorem GradStats.Add_pair (s t : GradStats) : s.Add t.GetGrad t.GetHess = s + t := rfl

theorem histSum_succ (hist : ℕ → GradStats) (a n : ℕ) :
    histSum hist a (n + 1) = histSum hist a n + hist (a + n) := rfl

theorem histSum_append (hist : ℕ → GradStats) (a m : ℕ) :
    ∀ n, histSum hist a m + histSum hist (a + m) n = histSum hist a (m + n)
  | 0 => by simp [histSum, GradStats.add_zero]
  | n + 1 => by
    have ih := histSum_append hist a m n
    show histSum hist a m + (histSum hist (a + m) n + hist (a + m + n)) =
      histSum hist a (m + n) + hist (a + (m + n))
    rw [← GradStats.addAssoc, ih, Nat.add_assoc]

theorem prefScan_grad (hist : ℕ → GradStats) (a : ℕ) :
    ∀ n, prefScan (fun j => (hist j).GetGrad) a n = (histSum hist a n).sum_grad
  | 0 => rfl
  | n + 1 => by
    have ih := prefScan_grad hist a n
    simp only [prefScan, histSum_succ, GradStats.add_grad, GradStats.GetGrad] at ih ⊢
    rw [ih]

theorem prefScan_hess (hist : ℕ → GradStats) (a : ℕ) :
    ∀ n, prefScan (fun j => (hist j).GetHess) a n = (histSum hist a n).sum_hess
  | 0 => rfl
  | n + 1 => by
    have ih := prefScan_hess hist a n
    simp only [prefScan, histSum_succ, GradStats.add_hess, GradStats.GetHess] at ih ⊢
    rw [ih]

theorem addRange_eq (hist : ℕ → GradStats) (s : GradStats) (a : ℕ) :
    ∀ n, addRange hist s a n = s + histSum hist a n
  | 0 => (GradStats.add_zero s).symm
  | n + 1 => by
    show (addRange hist s a n).Add _ _ = _
    rw [addRange_eq hist s a n, GradStats.Add_pair, GradStats.addAssoc, ← histSum_succ]

/-- The scan-increment of lane l at chunk base, written with the two scalar
scans, equals adding the histogram sum of the first l + 1 bins of the chunk. -/
theorem scanAdd_eq (hist : ℕ → GradStats) (s : GradStats) (base n : ℕ) :
    s.Add (prefScan (fun j => (hist j).GetGrad) base n)
          (prefScan (fun j => (hist j).GetHess) base n) =
      s + histSum hist base n := by
  rw [prefScan_grad, prefScan_hess]
  rfl

/-- enumCheck at the derived left sum is: merge the candidate record when
the position is eligible, keep best otherwise. -/
theorem laneStep_eq (c : EnumCtx) (b : SplitEntry) (i : ℕ) :
    laneStep c b i =
      if eligAt c i then
        b.UpdateCand (lossGainAt c i) c.fid (c.cut_val i) false
          (leftSumAt c i) (rightSumAt c i)
      else b := by
  unfold laneStep enumCheck eligAt lossGainAt rightSumAt
  by_cases h1 : c.min_child_weight ≤ (leftSumAt c i).GetHess
  · by_cases h2 : c.min_child_weight ≤ (c.snode.stats - leftSumAt c i).GetHess
    · simp [h1, h2]
    · simp [h1, h2]
  · simp [h1]

/-! ## The strided loop computes inclusive prefix sums -/

theorem lanePosUpto_succ (c : EnumCtx) (sgs l k : ℕ) :
    lanePosUpto c sgs l (k + 1) =
      lanePosUpto c sgs l k ++
        (if c.ibegin + k * sgs + l < c.iend then [c.ibegin + k * sgs + l] else []) := by
  unfold lanePosUpto
  rw [List.range_succ, List.map_append, List.filter_append]
  simp only [List.map_cons, List.map_nil]
  by_cases h : c.ibegin + k * sgs + l < c.iend
  · simp [h]
  · simp [h]

/-- chunkLane unfolded into an if-form without let bindings. -/
theorem chunkLane_eq (c : EnumCtx) (sgs base l : ℕ) (st : LaneState) :
    chunkLane c sgs base l st =
      if base + l < c.iend then
        { sum :=
            if c.iend ≤ base + l + sgs then
              st.sum.Add (prefScan (fun j => (c.hist_data j).GetGrad) base (l + 1))
                         (prefScan (fun j => (c.hist_data j).GetHess) base (l + 1))
            else
              addRange c.hist_data
                (st.sum.Add (prefScan (fun j => (c.hist_data j).GetGrad) base (l + 1))
                            (prefScan (fun j => (c.hist_data j).GetHess) base (l + 1)))
                (base + l + 1) (min (base + sgs) c.iend - (base + l + 1)),
          best := enumCheck c st.best
            (st.sum.Add (prefScan (fun j => (c.hist_data j).GetGrad) base (l + 1))
                        (prefScan (fun j => (c.hist_data j).GetHess) base (l + 1)))
            (base + l) }
      else st := by
  unfold chunkLane
  by_cases h1 : base + l < c.iend
  · by_cases h2 : c.iend ≤ base + l + sgs
    · simp [h1, h2]
    · simp [h1, h2]
  · simp [h1]

/-- One chunk preserves the lane invariant: the lane's best is the fold of
its positions seen so far, and (while the lane is still active) its running
sum is the histogram sum over all bins of the chunks completed so far. -/
theorem chunkLane_inv (c : EnumCtx) (sgs l k : ℕ) (hl : l < sgs) (st : LaneState)
    (hbest : st.best = laneFold c (lanePosUpto c sgs l k))
    (hsum : c.ibegin + k * sgs + l < c.iend →
      st.sum = histSum c.hist_data c.ibegin (k * sgs)) :
    (chunkLane c sgs (c.ibegin + k * sgs) l st).best =
        laneFold c (lanePosUpto c sgs l (k + 1)) ∧
      (c.ibegin + (k + 1) * sgs + l < c.iend →
        (chunkLane c sgs (c.ibegin + k * sgs) l st).sum =
          histSum c.hist_data c.ibegin ((k + 1) * sgs)) := by
  have hmul : (k + 1) * sgs = k * sgs + sgs := by ring
  by_cases hact : c.ibegin + k * sgs + l < c.iend
  · have hsum' := hsum hact
    rw [chunkLane_eq, if_pos hact]
    have hscan : st.sum.Add
        (prefScan (fun j => (c.hist_data j).GetGrad) (c.ibegin + k * sgs) (l + 1))
        (prefScan (fun j => (c.hist_data j).GetHess) (c.ibegin + k * sgs) (l + 1)) =
        histSum c.hist_data c.ibegin (k * sgs + (l + 1)) := by
      rw [scanAdd_eq, hsum', histSum_append]
    have hleft : leftSumAt c (c.ibegin + k * sgs + l) =
        histSum c.hist_data c.ibegin (k * sgs + (l + 1)) := by
      unfold leftSumAt; congr 1; omega
    constructor
    · show enumCheck c st.best _ _ = _
      rw [hscan, lanePosUpto_succ, if_pos hact]
      unfold laneFold
      rw [List.foldl_append]
      show _ = laneStep c (laneFold c (lanePosUpto c sgs l k)) (c.ibegin + k * sgs + l)
      rw [← hbest]
      unfold laneStep
      rw [hleft]
    · intro hnext
      have hlast : ¬ c.iend ≤ c.ibegin + k * sgs + l + sgs := by omega
      show (if c.iend ≤ c.ibegin + k * sgs + l + sgs then _ else _) = _
      rw [if_neg hlast, hscan]
      have hmin : min (c.ibegin + k * sgs + sgs) c.iend = c.ibegin + k * sgs + sgs := by
        apply Nat.min_eq_left; omega
      rw [hmin, addRange_eq]
      have harg : c.ibegin + k * sgs + l + 1 = c.ibegin + (k * sgs + (l + 1)) := by omega
      rw [harg, histSum_append]
      congr 1
      omega
  · have hcl : chunkLane c sgs (c.ibegin + k * sgs) l st = st :=
      chunkLane_eq c sgs _ l st ▸ if_neg hact
    rw [hcl, lanePosUpto_succ, if_neg hact, List.append_nil]
    refine ⟨hbest, fun hnext => absurd hnext (by omega)⟩

/-- Running n more chunks from chunk k preserves the best-component of the
lane invariant to chunk k + n. -/
theorem enumChunks_inv (c : EnumCtx) (sgs : ℕ) :
    ∀ (n k : ℕ) (sts : ℕ → LaneState),
      (∀ l, l < sgs →
        (sts l).best = laneFold c (lanePosUpto c sgs l k) ∧
        (c.ibegin + k * sgs + l < c.iend →
          (sts l).sum = histSum c.hist_data c.ibegin (k * sgs))) →
      ∀ l, l < sgs →
        (enumChunks c sgs n (c.ibegin + k * sgs) sts l).best =
          laneFold c (lanePosUpto c sgs l (k + n))
  | 0, k, sts, h, l, hl => by
    show (sts l).best = _
    simpa using (h l hl).1
  | n + 1, k, sts, h, l, hl => by
    have step : ∀ l', l' < sgs →
        ((chunkStep c sgs (c.ibegin + k * sgs) sts l').best =
          laneFold c (lanePosUpto c sgs l' (k + 1)) ∧
        (c.ibegin + (k + 1) * sgs + l' < c.iend →
          (chunkStep c sgs (c.ibegin + k * sgs) sts l').sum =
            histSum c.hist_data c.ibegin ((k + 1) * sgs))) :=
      fun l' hl' => chunkLane_inv c sgs l' k hl' (sts l') (h l' hl').1 (h l' hl').2
    have ih := enumChunks_inv c sgs n (k + 1)
      (chunkStep c sgs (c.ibegin + k * sgs) sts) step l hl
    have hbase : c.ibegin + k * sgs + sgs = c.ibegin + (k + 1) * sgs := by ring
    show (enumChunks c sgs n (c.ibegin + k * sgs + sgs)
      (chunkStep c sgs (c.ibegin + k * sgs) sts) l).best = _
    rw [hbase]
    have hcnt : k + 1 + n = k + (n + 1) := by omega
    rw [← hcnt]
    exact ih

/-- Lemma L: after the whole strided loop, each lane's local best is the
fold of the candidate records over the positions it visited, in order. -/
theorem enumLanes_best (c : EnumCtx) (sgs l : ℕ) (hl : l < sgs) :
    (enumLanes c sgs l).best = laneFold c (lanePositions c sgs l) := by
  unfold enumLanes lanePositions
  have h0 : ∀ l', l' < sgs →
      ((fun _ => LaneState.init) l' : LaneState).best =
        laneFold c (lanePosUpto c sgs l' 0) ∧
      (c.ibegin + 0 * sgs + l' < c.iend →
        ((fun _ => LaneState.init) l' : LaneState).sum =
          histSum c.hist_data c.ibegin (0 * sgs)) := by
    intro l' _
    refine ⟨?_, fun _ => ?_⟩
    · show SplitEntry.init = _
      simp [lanePosUpto, laneFold]
    · show (⟨0, 0⟩ : GradStats) = _
      rw [Nat.zero_mul]
      rfl
  have := enumChunks_inv c sgs (numChunks c sgs) 0 (fun _ => LaneState.init) h0 l hl
  rw [Nat.zero_mul, Nat.add_zero] at this
  rw [Nat.zero_add] at this
  exact this

/-! ## Lane position coverage -/

theorem mem_lanePositions {c : EnumCtx} {sgs l i : ℕ} :
    i ∈ lanePositions c sgs l ↔
      (∃ j, j < numChunks c sgs ∧ c.ibegin + j * sgs + l = i) ∧ i < c.iend := by
  unfold lanePositions lanePosUpto
  simp [List.mem_filter]

theorem lanePositions_range {c : EnumCtx} {sgs l i : ℕ}
    (h : i ∈ lanePositions c sgs l) : c.ibegin ≤ i ∧ i < c.iend := by
  rw [mem_lanePositions] at h
  obtain ⟨⟨j, _, hj⟩, h2⟩ := h
  omega

/-- Every in-range bin position is visited, by the lane congruent to its
offset modulo the sub-group size. -/
theorem mem_lanePositions_self (c : EnumCtx) (sgs : ℕ) (hs : 1 ≤ sgs) {i : ℕ}
    (h1 : c.ibegin ≤ i) (h2 : i < c.iend) :
    (i - c.ibegin) % sgs < sgs ∧ i ∈ lanePositions c sgs ((i - c.ibegin) % sgs) := by
  have hmod : (i - c.ibegin) % sgs < sgs := Nat.mod_lt _ hs
  refine ⟨hmod, ?_⟩
  rw [mem_lanePositions]
  refine ⟨⟨(i - c.ibegin) / sgs, ?_, ?_⟩, h2⟩
  · unfold numChunks
    have hdm : i - c.ibegin < c.iend - c.ibegin := by omega
    have h1' : (i - c.ibegin) / sgs * sgs ≤ i - c.ibegin :=
      Nat.div_mul_le_self _ sgs
    rw [Nat.lt_iff_add_one_le, Nat.le_div_iff_mul_le hs]
    have hexp : ((i - c.ibegin) / sgs + 1) * sgs = (i - c.ibegin) / sgs * sgs + sgs := by
      ring
    omega
  · have h1 := Nat.div_add_mod (i - c.ibegin) sgs
    have h2 : sgs * ((i - c.ibegin) / sgs) = (i - c.ibegin) / sgs * sgs :=
      Nat.mul_comm _ _
    omega

/-! ## Local-best characterization along one lane -/

theorem NeedReplace_iff (s : SplitEntry) (loss : GradT) (idx : ℕ) :
    s.NeedReplace loss idx = true ↔
      s.loss_chg < loss ∨ (loss = s.loss_chg ∧ idx < s.SplitIndex) := by
  unfold SplitEntry.NeedReplace
  simp

theorem UpdateCand_loss_le (b : SplitEntry) (loss : GradT) (idx : ℕ) (v : GradT)
    (dl : Bool) (ls rs : GradStats) :
    b.loss_chg ≤ (b.UpdateCand loss idx v dl ls rs).loss_chg := by
  unfold SplitEntry.UpdateCand
  split
  case isTrue h =>
    rw [NeedReplace_iff] at h
    rcases h with h | ⟨h, _⟩
    · exact le_of_lt h
    · exact le_of_eq h.symm
  case isFalse _ => exact le_refl _

theorem laneStep_loss_le (c : EnumCtx) (b : SplitEntry) (i : ℕ) :
    b.loss_chg ≤ (laneStep c b i).loss_chg := by
  rw [laneStep_eq]
  split
  · exact UpdateCand_loss_le _ _ _ _ _ _ _
  · exact le_refl _

theorem foldl_laneStep_loss_le (c : EnumCtx) :
    ∀ (L : List ℕ) (b : SplitEntry), b.loss_chg ≤ (L.foldl (laneStep c) b).loss_chg
  | [], _ => le_refl _
  | i :: L, b =>
    le_trans (laneStep_loss_le c b i) (foldl_laneStep_loss_le c L _)

theorem laneStep_cand_le (c : EnumCtx) (b : SplitEntry) (i : ℕ) (h : eligAt c i) :
    lossGainAt c i ≤ (laneStep c b i).loss_chg := by
  rw [laneStep_eq, if_pos h]
  unfold SplitEntry.UpdateCand
  split
  case isTrue _ => exact le_refl _
  case isFalse hn =>
    have : ¬ (b.loss_chg < lossGainAt c i ∨
        (lossGainAt c i = b.loss_chg ∧ c.fid < b.SplitIndex)) := by
      rw [← NeedReplace_iff]
      simp [hn]
    push_neg at this
    exact this.1

/-- Candidate monotonicity: every eligible position contributes a lower
bound on the fold's final loss change. -/
theorem foldl_laneStep_mem_le (c : EnumCtx) :
    ∀ (L : List ℕ) (b : SplitEntry) (i : ℕ), i ∈ L → eligAt c i →
      lossGainAt c i ≤ (L.foldl (laneStep c) b).loss_chg
  | [], _, _, h, _ => absurd h (List.not_mem_nil _)
  | j :: L, b, i, h, he => by
    rcases List.mem_cons.mp h with h | h
    · subst h
      exact le_trans (laneStep_cand_le c b i he) (foldl_laneStep_loss_le c L _)
    · exact foldl_laneStep_mem_le c L _ i h he

/-- Invariant of a lane's local best: it is either the fresh entry or the
candidate record of some eligible position with positive gain. -/
def GoodIn (c : EnumCtx) (S : List ℕ) (b : SplitEntry) : Prop :=
  b = SplitEntry.init ∨
    ∃ i, i ∈ S ∧ eligAt c i ∧ 0 < lossGainAt c i ∧ b = entryAt c i

theorem GoodIn.loss_nonneg {c : EnumCtx} {S : List ℕ} {b : SplitEntry}
    (h : GoodIn c S b) : 0 ≤ b.loss_chg := by
  rcases h with rfl | ⟨i, _, _, hpos, rfl⟩
  · exact le_refl _
  · exact le_of_lt hpos

theorem GoodIn.index_le {c : EnumCtx} {S : List ℕ} {b : SplitEntry}
    (h : GoodIn c S b) : b.SplitIndex ≤ c.fid := by
  rcases h with rfl | ⟨i, _, _, _, rfl⟩
  · show SplitEntry.init.sindex % 2 ^ 31 ≤ c.fid
    simp [SplitEntry.init]
  · show c.fid % 2 ^ 31 ≤ c.fid
    exact Nat.mod_le _ _

theorem laneStep_good {c : EnumCtx} {S : List ℕ} {b : SplitEntry} {i : ℕ}
    (h : GoodIn c S b) (hi : i ∈ S) : GoodIn c S (laneStep c b i) := by
  rw [laneStep_eq]
  split
  case isFalse _ => exact h
  case isTrue he =>
    unfold SplitEntry.UpdateCand
    split
    case isFalse _ => exact h
    case isTrue hr =>
      right
      refine ⟨i, hi, he, ?_, rfl⟩
      rw [NeedReplace_iff] at hr
      rcases hr with hlt | ⟨_, hidx⟩
      · exact lt_of_le_of_lt h.loss_nonneg hlt
      · exact absurd hidx (by have := h.index_le; omega)

theorem foldl_laneStep_good (c : EnumCtx) {S : List ℕ} :
    ∀ (L : List ℕ) (b : SplitEntry), GoodIn c S b → (∀ i ∈ L, i ∈ S) →
      GoodIn c S (L.foldl (laneStep c) b)
  | [], _, h, _ => h
  | i :: L, b, h, hsub =>
    foldl_laneStep_good c L _ (laneStep_good h (hsub i (List.mem_cons_self i L)))
      (fun j hj => hsub j (List.mem_cons_of_mem _ hj))

theorem laneFold_good (c : EnumCtx) (L : List ℕ) : GoodIn c L (laneFold c L) :=
  foldl_laneStep_good c L SplitEntry.init (Or.inl rfl) (fun _ h => h)

theorem laneFold_loss_nonneg (c : EnumCtx) (L : List ℕ) :
    0 ≤ (laneFold c L).loss_chg :=
  foldl_laneStep_loss_le c L SplitEntry.init

theorem laneFold_of_loss_zero (c : EnumCtx) (L : List ℕ)
    (h : (laneFold c L).loss_chg = 0) : laneFold c L = SplitEntry.init := by
  rcases laneFold_good c L with h0 | ⟨i, _, _, hpos, he⟩
  · exact h0
  · rw [he] at h
    exact absurd h (show (entryAt c i).loss_chg ≠ 0 from ne_of_gt hpos)

theorem laneFold_of_loss_pos (c : EnumCtx) (L : List ℕ)
    (h : 0 < (laneFold c L).loss_chg) :
    ∃ i, i ∈ L ∧ eligAt c i ∧ laneFold c L = entryAt c i := by
  rcases laneFold_good c L with h0 | ⟨i, hi, helig, _, he⟩
  · rw [h0] at h
    simp [SplitEntry.init] at h
  · exact ⟨i, hi, helig, he⟩

/-! ## Reduction lemmas -/

theorem le_foldl_max : ∀ (l : List GradT) (b : GradT), b ≤ l.foldl max b
  | [], _ => le_refl _
  | x :: l, b => le_trans (le_max_left b x) (le_foldl_max l _)

theorem mem_le_foldl_max : ∀ (l : List GradT) (b : GradT) {a : GradT}, a ∈ l → a ≤ l.foldl max b
  | [], _, _, h => absurd h (List.not_mem_nil _)
  | x :: l, b, a, h => by
    rcases List.mem_cons.mp h with rfl | h
    · exact le_trans (le_max_right b a) (le_foldl_max l _)
    · exact mem_le_foldl_max l _ h

theorem foldl_max_le : ∀ (l : List GradT) (b m : GradT), b ≤ m → (∀ a ∈ l, a ≤ m) →
    l.foldl max b ≤ m
  | [], _, _, hb, _ => hb
  | x :: l, b, m, hb, h =>
    foldl_max_le l _ m (max_le hb (h x (List.mem_cons_self x l)))
      (fun a ha => h a (List.mem_cons_of_mem _ ha))

theorem foldl_max_mem : ∀ (l : List GradT) (b : GradT), l.foldl max b = b ∨ l.foldl max b ∈ l
  | [], _ => Or.inl rfl
  | x :: l, b => by
    rcases foldl_max_mem l (max b x) with h | h
    · rcases max_choice b x with hm | hm
      · exact Or.inl (by rw [List.foldl_cons, h, hm])
      · exact Or.inr (by rw [List.foldl_cons, h, hm]; exact List.mem_cons_self x l)
    · exact Or.inr (List.mem_cons_of_mem _ h)

theorem le_reduceMax {l : List GradT} {a : GradT} (h : a ∈ l) : a ≤ reduceMax l := by
  match l with
  | [] => exact absurd h (List.not_mem_nil _)
  | x :: xs =>
    rcases List.mem_cons.mp h with rfl | h
    · exact le_foldl_max xs a
    · exact mem_le_foldl_max xs x h

theorem reduceMax_le {l : List GradT} {m : GradT} (hne : l ≠ []) (h : ∀ a ∈ l, a ≤ m) :
    reduceMax l ≤ m := by
  match l with
  | [] => exact absurd rfl hne
  | x :: xs =>
    exact foldl_max_le xs x m (h x (List.mem_cons_self x xs))
      (fun a ha => h a (List.mem_cons_of_mem _ ha))

theorem reduceMax_mem {l : List GradT} (hne : l ≠ []) : reduceMax l ∈ l := by
  match l with
  | [] => exact absurd rfl hne
  | x :: xs =>
    rcases foldl_max_mem xs x with h | h
    · rw [show reduceMax (x :: xs) = xs.foldl max x from rfl, h]
      exact List.mem_cons_self x xs
    · exact List.mem_cons_of_mem _ h

theorem foldl_min_le : ∀ (l : List ℕ) (b : ℕ), l.foldl min b ≤ b
  | [], _ => le_refl _
  | x :: l, b => le_trans (foldl_min_le l _) (min_le_left b x)

theorem foldl_min_le_mem : ∀ (l : List ℕ) (b : ℕ) {a : ℕ}, a ∈ l → l.foldl min b ≤ a
  | [], _, _, h => absurd h (List.not_mem_nil _)
  | x :: l, b, a, h => by
    rcases List.mem_cons.mp h with rfl | h
    · exact le_trans (foldl_min_le l _) (min_le_right b a)
    · exact foldl_min_le_mem l _ h

theorem le_foldl_min : ∀ (l : List ℕ) (b m : ℕ), m ≤ b → (∀ a ∈ l, m ≤ a) →
    m ≤ l.foldl min b
  | [], _, _, hb, _ => hb
  | x :: l, b, m, hb, h =>
    le_foldl_min l _ m (le_min hb (h x (List.mem_cons_self x l)))
      (fun a ha => h a (List.mem_cons_of_mem _ ha))

theorem reduceMin_le {l : List ℕ} {a : ℕ} (h : a ∈ l) : reduceMin l ≤ a := by
  match l with
  | [] => exact absurd h (List.not_mem_nil _)
  | x :: xs =>
    rcases List.mem_cons.mp h with rfl | h
    · exact foldl_min_le xs a
    · exact foldl_min_le_mem xs x h

theorem le_reduceMin {l : List ℕ} {m : ℕ} (hne : l ≠ []) (h : ∀ a ∈ l, m ≤ a) :
    m ≤ reduceMin l := by
  match l with
  | [] => exact absurd rfl hne
  | x :: xs =>
    exact le_foldl_min xs x m (h x (List.mem_cons_self x xs))
      (fun a ha => h a (List.mem_cons_of_mem _ ha))

/-- Folding a conditionally-applied function is folding over the filtered
list. -/
theorem foldl_if_filter {α β : Type} (p : α → Prop) [DecidablePred p] (f : β → α → β) :
    ∀ (l : List α) (b : β),
      l.foldl (fun acc x => if p x then f acc x else acc) b =
        (l.filter (fun x => decide (p x))).foldl f b
  | [], _ => rfl
  | x :: l, b => by
    by_cases h : p x
    · simp only [List.foldl_cons, if_pos h, List.filter_cons, decide_eq_true_eq, h, if_true]
      exact foldl_if_filter p f l _
    · simp only [List.foldl_cons, if_neg h, List.filter_cons, decide_eq_true_eq, h, if_false]
      exact foldl_if_filter p f l b

/-! ## Update-merge lemmas -/

theorem Update_of_true {p e : SplitEntry}
    (h : p.NeedReplace e.loss_chg e.SplitIndex = true) : p.Update e = e := by
  simp [SplitEntry.Update, h]

theorem Update_of_false {p e : SplitEntry}
    (h : p.NeedReplace e.loss_chg e.SplitIndex = false) : p.Update e = p := by
  simp [SplitEntry.Update, h]

theorem NeedReplace_false_of_same (p e : SplitEntry) (h1 : p.loss_chg = e.loss_chg)
    (h2 : p.SplitIndex ≤ e.SplitIndex) :
    p.NeedReplace e.loss_chg e.SplitIndex = false := by
  rw [← Bool.not_eq_true, NeedReplace_iff]
  rintro (hlt | ⟨heq, hidx⟩)
  · rw [h1] at hlt
    exact absurd hlt (lt_irrefl _)
  · omega

/-- Folding Update over entries that all carry the same loss change and the
same split index reduces to a single Update with the first entry. -/
theorem foldl_Update_fixed : ∀ (es : List SplitEntry) (p : SplitEntry),
    (∀ e ∈ es, p.Update e = p) → es.foldl SplitEntry.Update p = p
  | [], _, _ => rfl
  | e :: es, p, h => by
    rw [List.foldl_cons, h e (List.mem_cons_self e es)]
    exact foldl_Update_fixed es p (fun e' he' => h e' (List.mem_cons_of_mem _ he'))

theorem foldl_Update_same_key (T : GradT) (I : ℕ) (es : List SplitEntry)
    (p0 e0 : SplitEntry)
    (hkeys : ∀ e ∈ e0 :: es, e.loss_chg = T ∧ e.SplitIndex = I) :
    (e0 :: es).foldl SplitEntry.Update p0 = p0.Update e0 := by
  rw [List.foldl_cons]
  rcases Bool.eq_false_or_eq_true (p0.NeedReplace e0.loss_chg e0.SplitIndex) with hb | hb
  · rw [Update_of_true hb]
    apply foldl_Update_fixed
    intro e he
    have hk := hkeys e (List.mem_cons_of_mem _ he)
    have hk0 := hkeys e0 (List.mem_cons_self e0 es)
    apply Update_of_false
    apply NeedReplace_false_of_same
    · rw [hk.1, hk0.1]
    · rw [hk.2, hk0.2]
  · rw [Update_of_false hb]
    apply foldl_Update_fixed
    intro e he
    apply Update_of_false
    have hk := hkeys e (List.mem_cons_of_mem _ he)
    have hk0 := hkeys e0 (List.mem_cons_self e0 es)
    rw [hk.1, hk.2, ← hk0.1, ← hk0.2]
    exact hb

/-! ## EnumerateSplit: group size does not change the merged (gain, index) -/

theorem laneBests_eq (c : EnumCtx) (sgs : ℕ) :
    laneBests c sgs = (List.range sgs).map (fun l => laneFold c (lanePositions c sgs l)) := by
  unfold laneBests
  apply List.map_congr_left
  intro l hl
  exact enumLanes_best c sgs l (List.mem_range.mp hl)

theorem laneBests_length (c : EnumCtx) (sgs : ℕ) : (laneBests c sgs).length = sgs := by
  simp [laneBests]

/-- The group-reduced maximum loss change is the same for every positive
sub-group size. -/
theorem totalLoss_le (c : EnumCtx) {s s' : ℕ} (hs : 1 ≤ s) (hs' : 1 ≤ s') :
    reduceMax ((laneBests c s).map (·.loss_chg)) ≤
      reduceMax ((laneBests c s').map (·.loss_chg)) := by
  have hne : (laneBests c s).map (·.loss_chg) ≠ [] := by
    apply List.ne_nil_of_length_pos
    simp [laneBests_length]
    omega
  have hmem0' : (laneFold c (lanePositions c s' 0)).loss_chg ∈
      (laneBests c s').map (·.loss_chg) := by
    rw [laneBests_eq]
    rw [List.map_map]
    apply List.mem_map_of_mem
    exact List.mem_range.mpr (by omega)
  have hT'nn : 0 ≤ reduceMax ((laneBests c s').map (·.loss_chg)) :=
    le_trans (laneFold_loss_nonneg c _) (le_reduceMax hmem0')
  obtain hmax := reduceMax_mem hne
  rw [List.mem_map] at hmax
  obtain ⟨b, hbB, hbT⟩ := hmax
  rw [laneBests_eq, List.mem_map] at hbB
  obtain ⟨l, _, hbl⟩ := hbB
  rcases le_or_lt (reduceMax ((laneBests c s).map (·.loss_chg))) 0 with hT | hT
  · exact le_trans hT hT'nn
  · rw [← hbT] at hT ⊢
    rw [← hbl] at hT ⊢
    obtain ⟨i, hi, helig, heq⟩ := laneFold_of_loss_pos c _ hT
    rw [heq]
    obtain ⟨hib, hie⟩ := lanePositions_range hi
    obtain ⟨hl', hi'⟩ := mem_lanePositions_self c s' hs' hib hie
    have hstep : lossGainAt c i ≤
        (laneFold c (lanePositions c s' ((i - c.ibegin) % s'))).loss_chg :=
      foldl_laneStep_mem_le c _ SplitEntry.init i hi' helig
    have hmem' : (laneFold c (lanePositions c s' ((i - c.ibegin) % s'))).loss_chg ∈
        (laneBests c s').map (·.loss_chg) := by
      rw [laneBests_eq, List.map_map]
      apply List.mem_map_of_mem
      exact List.mem_range.mpr hl'
    exact le_trans hstep (le_reduceMax hmem')

/-- The group-reduced maximum loss change of an EnumerateSplit call. -/
def totalLossOf (c : EnumCtx) (sgs : ℕ) : GradT :=
  reduceMax ((laneBests c sgs).map (·.loss_chg))

/-- The group-reduced minimum split index among the achieving lanes. -/
def totalIndexOf (c : EnumCtx) (sgs : ℕ) : ℕ :=
  reduceMin ((laneBests c sgs).map (fun b =>
    if b.loss_chg = totalLossOf c sgs then b.SplitIndex else 2 ^ 31 - 1))

theorem EnumerateSplit_eq (c : EnumCtx) (sgs : ℕ) (p : SplitEntry) :
    EnumerateSplit c sgs p =
      (laneBests c sgs).foldl (fun pb b =>
        if b.loss_chg = totalLossOf c sgs ∧ b.SplitIndex = totalIndexOf c sgs
        then pb.Update b else pb) p := rfl

/-- The outcome of EnumerateSplit: either some lane found a candidate with
positive loss change, and the shared best receives one Update with an entry
carrying the group-maximal loss change and this feature's id; or no lane
did, and the shared best receives one Update with the fresh entry. -/
theorem EnumerateSplit_char (c : EnumCtx) (sgs : ℕ) (hs : 1 ≤ sgs) (p0 : SplitEntry) :
    (0 < totalLossOf c sgs ∧
      ∃ e, e.loss_chg = totalLossOf c sgs ∧ e.sindex = c.fid ∧
        EnumerateSplit c sgs p0 = p0.Update e) ∨
    (totalLossOf c sgs = 0 ∧ EnumerateSplit c sgs p0 = p0.Update SplitEntry.init) := by
  have hBlen : (laneBests c sgs).length = sgs := laneBests_length c sgs
  have hBne : laneBests c sgs ≠ [] := List.ne_nil_of_length_pos (by omega)
  have hmapne : (laneBests c sgs).map (·.loss_chg) ≠ [] := by
    apply List.ne_nil_of_length_pos
    simp only [List.length_map, hBlen]
    omega
  have hform : ∀ b ∈ laneBests c sgs, ∃ l, l < sgs ∧ b = laneFold c (lanePositions c sgs l) := by
    intro b hb
    rw [laneBests_eq, List.mem_map] at hb
    obtain ⟨l, hl, he⟩ := hb
    exact ⟨l, List.mem_range.mp hl, he.symm⟩
  have hnn : ∀ b ∈ laneBests c sgs, 0 ≤ b.loss_chg := by
    intro b hb
    obtain ⟨l, _, rfl⟩ := hform b hb
    exact laneFold_loss_nonneg c _
  have hub : ∀ b ∈ laneBests c sgs, b.loss_chg ≤ totalLossOf c sgs := by
    intro b hb
    exact le_reduceMax (List.mem_map_of_mem _ hb)
  have hTnn : 0 ≤ totalLossOf c sgs := by
    obtain hmem := reduceMax_mem hmapne
    rw [List.mem_map] at hmem
    obtain ⟨b, hb, he⟩ := hmem
    rw [show totalLossOf c sgs = reduceMax ((laneBests c sgs).map (·.loss_chg)) from rfl,
       ← he]
    exact hnn b hb
  by_cases hT : totalLossOf c sgs = 0
  · right
    refine ⟨hT, ?_⟩
    have hinit : ∀ b ∈ laneBests c sgs, b = SplitEntry.init := by
      intro b hb
      obtain ⟨l, _, rfl⟩ := hform b hb
      apply laneFold_of_loss_zero
      have h1 := hub _ hb
      rw [hT] at h1
      exact le_antisymm h1 (hnn _ hb)
    have hTI : totalIndexOf c sgs = 0 := by
      apply Nat.le_antisymm
      · obtain ⟨b0, hb0⟩ := List.exists_mem_of_ne_nil _ hBne
        have hred := reduceMin_le
          (List.mem_map_of_mem (fun b =>
            if b.loss_chg = totalLossOf c sgs then b.SplitIndex else 2 ^ 31 - 1) hb0)
        have hval : (if b0.loss_chg = totalLossOf c sgs then b0.SplitIndex else 2 ^ 31 - 1) = 0 := by
          rw [hinit b0 hb0, hT]
          simp [SplitEntry.init, SplitEntry.SplitIndex]
        exact le_trans hred (le_of_eq hval)
      · exact Nat.zero_le _
    rw [EnumerateSplit_eq, foldl_if_filter]
    have hfilter : (laneBests c sgs).filter (fun b =>
        decide (b.loss_chg = totalLossOf c sgs ∧ b.SplitIndex = totalIndexOf c sgs)) =
        laneBests c sgs := by
      apply List.filter_eq_self.mpr
      intro b hb
      rw [hinit b hb, hT, hTI]
      simp [SplitEntry.init, SplitEntry.SplitIndex]
    rw [hfilter]
    obtain ⟨b0, rest, hcons⟩ : ∃ b0 rest, laneBests c sgs = b0 :: rest := by
      cases h : laneBests c sgs with
      | nil => exact absurd h hBne
      | cons a l => exact ⟨a, l, rfl⟩
    rw [hcons, foldl_Update_same_key 0 0 rest p0 b0]
    · rw [hinit b0 (by rw [hcons]; exact List.mem_cons_self b0 rest)]
    · intro e he
      have he' : e ∈ laneBests c sgs := by rw [hcons]; exact he
      rw [hinit e he']
      refine ⟨?_, ?_⟩ <;> simp [SplitEntry.init, SplitEntry.SplitIndex]
  · left
    have hTpos : 0 < totalLossOf c sgs := lt_of_le_of_ne hTnn (Ne.symm hT)
    refine ⟨hTpos, ?_⟩
    obtain hmem := reduceMax_mem hmapne
    rw [List.mem_map] at hmem
    obtain ⟨b0, hb0B, hb0T⟩ := hmem
    replace hb0T : b0.loss_chg = totalLossOf c sgs := hb0T
    have hkey : ∀ b ∈ laneBests c sgs, b.loss_chg = totalLossOf c sgs →
        b.sindex = c.fid := by
      intro b hb hbT
      obtain ⟨l, _, rfl⟩ := hform b hb
      obtain ⟨i, _, _, heq⟩ := laneFold_of_loss_pos c _ (by rw [hbT]; exact hTpos)
      rw [heq]
      rfl
    have hkeyS : ∀ b ∈ laneBests c sgs, b.loss_chg = totalLossOf c sgs →
        b.SplitIndex = c.fid % 2 ^ 31 := by
      intro b hb hbT
      unfold SplitEntry.SplitIndex
      rw [hkey b hb hbT]
    have hTI : totalIndexOf c sgs = c.fid % 2 ^ 31 := by
      apply Nat.le_antisymm
      · have hred := reduceMin_le
          (List.mem_map_of_mem (fun b =>
            if b.loss_chg = totalLossOf c sgs then b.SplitIndex else 2 ^ 31 - 1) hb0B)
        have hval : (if b0.loss_chg = totalLossOf c sgs then b0.SplitIndex else 2 ^ 31 - 1) =
            c.fid % 2 ^ 31 := by
          rw [if_pos hb0T, hkeyS b0 hb0B hb0T]
        exact le_trans hred (le_of_eq hval)
      · apply le_reduceMin
        · apply List.ne_nil_of_length_pos
          simp only [List.length_map, hBlen]
          omega
        · intro v hv
          rw [List.mem_map] at hv
          obtain ⟨b, hbB, hbv⟩ := hv
          rw [← hbv]
          by_cases hcond : b.loss_chg = totalLossOf c sgs
          · rw [if_pos hcond, hkeyS b hbB hcond]
          · rw [if_neg hcond]
            have hlt : c.fid % 2 ^ 31 < 2 ^ 31 := Nat.mod_lt _ (by norm_num)
            omega
    rw [EnumerateSplit_eq, foldl_if_filter]
    have hb0f : b0 ∈ (laneBests c sgs).filter (fun b =>
        decide (b.loss_chg = totalLossOf c sgs ∧ b.SplitIndex = totalIndexOf c sgs)) := by
      apply List.mem_filter.mpr
      refine ⟨hb0B, ?_⟩
      simp only [decide_eq_true_eq]
      exact ⟨hb0T, by rw [hkeyS b0 hb0B hb0T, hTI]⟩
    obtain ⟨e0, rest, hcons⟩ : ∃ e0 rest, (laneBests c sgs).filter (fun b =>
        decide (b.loss_chg = totalLossOf c sgs ∧ b.SplitIndex = totalIndexOf c sgs)) =
        e0 :: rest := by
      cases h : (laneBests c sgs).filter (fun b =>
          decide (b.loss_chg = totalLossOf c sgs ∧ b.SplitIndex = totalIndexOf c sgs)) with
      | nil => rw [h] at hb0f; exact absurd hb0f (List.not_mem_nil _)
      | cons a l => exact ⟨a, l, rfl⟩
    rw [hcons]
    have hkeys : ∀ e ∈ e0 :: rest,
        e.loss_chg = totalLossOf c sgs ∧ e.SplitIndex = c.fid % 2 ^ 31 := by
      intro e he
      have he' := hcons ▸ he
      obtain ⟨heB, hepass⟩ := List.mem_filter.mp he'
      simp only [decide_eq_true_eq] at hepass
      exact ⟨hepass.1, by rw [hepass.2, hTI]⟩
    rw [foldl_Update_same_key (totalLossOf c sgs) (c.fid % 2 ^ 31) rest p0 e0 hkeys]
    have he0B : e0 ∈ laneBests c sgs := by
      have he0f : e0 ∈ e0 :: rest := List.mem_cons_self e0 rest
      exact (List.mem_filter.mp (hcons ▸ he0f)).1
    exact ⟨e0, (hkeys e0 (List.mem_cons_self e0 rest)).1,
      hkey e0 he0B (hkeys e0 (List.mem_cons_self e0 rest)).1, rfl⟩

/-- Running EnumerateSplit with any positive sub-group size produces a
merged best split with the same loss change and the same sindex as the
sequential run with sub-group size 1. -/
theorem EnumerateSplit_agree_aux (c : EnumCtx) (sgs : ℕ) (hs : 1 ≤ sgs) (p0 : SplitEntry) :
    (EnumerateSplit c sgs p0).loss_chg = (EnumerateSplit c 1 p0).loss_chg ∧
    (EnumerateSplit c sgs p0).sindex = (EnumerateSplit c 1 p0).sindex := by
  have hT : totalLossOf c sgs = totalLossOf c 1 :=
    le_antisymm (totalLoss_le c hs (le_refl 1)) (totalLoss_le c (le_refl 1) hs)
  rcases EnumerateSplit_char c sgs hs p0 with ⟨hpos, e, heT, hef, heq⟩ | ⟨hzero, heq⟩ <;>
    rcases EnumerateSplit_char c 1 (le_refl 1) p0 with
      ⟨hpos', e', heT', hef', heq'⟩ | ⟨hzero', heq'⟩
  · rw [heq, heq']
    have hloss : e.loss_chg = e'.loss_chg := by rw [heT, heT', hT]
    have hSI : e.SplitIndex = e'.SplitIndex := by
      unfold SplitEntry.SplitIndex
      rw [hef, hef']
    rcases Bool.eq_false_or_eq_true (p0.NeedReplace e'.loss_chg e'.SplitIndex) with hb | hb
    · have h1 : p0.Update e = e := Update_of_true (by rw [hloss, hSI]; exact hb)
      have h2 : p0.Update e' = e' := Update_of_true hb
      rw [h1, h2]
      exact ⟨hloss, by rw [hef, hef']⟩
    · have h1 : p0.Update e = p0 := Update_of_false (by rw [hloss, hSI]; exact hb)
      have h2 : p0.Update e' = p0 := Update_of_false hb
      rw [h1, h2]
      exact ⟨rfl, rfl⟩
  · rw [hT, hzero'] at hpos
    exact absurd hpos (lt_irrefl 0)
  · rw [← hT, hzero] at hpos'
    exact absurd hpos' (lt_irrefl 0)
  · rw [heq, heq']
    exact ⟨rfl, rfl⟩

/-! ## Compaction lemmas -/

theorem take_succ_set {α : Type} (a : α) :
    ∀ (l : List α) (k : ℕ), k < l.length → (l.set k a).take (k + 1) = l.take k ++ [a]
  | [], k, h => absurd h (by simp)
  | x :: xs, 0, _ => rfl
  | x :: xs, k + 1, h => by
    have ih := take_succ_set a xs k (by simpa using h)
    simp only [List.set_cons_succ, List.take_succ_cons, ih, List.cons_append]

theorem compactKept_fold_inv (p : ℕ → Bool) (buf0 : List ℕ) :
    ∀ m, m ≤ buf0.length →
      ((List.range m).foldl
        (fun (bc : List ℕ × ℕ) i => if p i then (bc.1.set bc.2 i, bc.2 + 1) else bc)
        (buf0, 0)).2 = ((List.range m).filter p).length ∧
      ((List.range m).foldl
        (fun (bc : List ℕ × ℕ) i => if p i then (bc.1.set bc.2 i, bc.2 + 1) else bc)
        (buf0, 0)).1.take ((List.range m).filter p).length = (List.range m).filter p ∧
      ((List.range m).foldl
        (fun (bc : List ℕ × ℕ) i => if p i then (bc.1.set bc.2 i, bc.2 + 1) else bc)
        (buf0, 0)).1.length = buf0.length
  | 0, _ => ⟨rfl, rfl, rfl⟩
  | m + 1, hm => by
    obtain ⟨h2, h1, hlen⟩ := compactKept_fold_inv p buf0 m (by omega)
    have hflen : ((List.range m).filter p).length ≤ m := by
      calc ((List.range m).filter p).length ≤ (List.range m).length :=
            List.length_filter_le _ _
        _ = m := List.length_range m
    rw [List.range_succ, List.foldl_append, List.filter_append]
    by_cases hp : p m
    · have hfil1 : List.filter p [m] = [m] := by simp [hp]
      simp only [List.foldl_cons, List.foldl_nil, if_pos hp, hfil1,
        List.length_append, List.length_cons, List.length_nil, Nat.zero_add]
      have hidx : ((List.range m).filter p).length <
          ((List.range m).foldl
            (fun (bc : List ℕ × ℕ) i => if p i then (bc.1.set bc.2 i, bc.2 + 1) else bc)
            (buf0, 0)).1.length := by
        rw [hlen]; omega
      refine ⟨by rw [h2], ?_, by rw [List.length_set, hlen]⟩
      rw [h2, take_succ_set m _ _ hidx, h1]
    · have hfil1 : List.filter p [m] = [] := by simp [hp]
      simp only [List.foldl_cons, List.foldl_nil, if_neg hp, hfil1, List.append_nil]
      exact ⟨h2, h1, hlen⟩

/-- The atomic compaction keeps exactly the passing rows, in row order, and
the output is resized to the exact count. -/
theorem compactKept_spec (p : ℕ → Bool) (n : ℕ) (buf0 : List ℕ)
    (hn : n ≤ buf0.length) :
    compactKept p n buf0 = ((List.range n).filter p, ((List.range n).filter p).length) := by
  obtain ⟨h2, h1, _⟩ := compactKept_fold_inv p buf0 n hn
  unfold compactKept
  dsimp only
  rw [h2, h1]

/-! ## List getD / set / resize lemmas -/

theorem getD_replicate {α : Type} (d : α) : ∀ (n j : ℕ), (List.replicate n d).getD j d = d
  | 0, _ => rfl
  | _ + 1, 0 => rfl
  | n + 1, j + 1 => by
    rw [List.replicate_succ, List.getD_cons_succ]
    exact getD_replicate d n j

theorem getD_set_self {α : Type} (d a : α) :
    ∀ (l : List α) (i : ℕ), i < l.length → (l.set i a).getD i d = a
  | [], i, h => absurd h (by simp)
  | x :: xs, 0, _ => rfl
  | x :: xs, i + 1, h => by
    rw [List.set_cons_succ, List.getD_cons_succ]
    exact getD_set_self d a xs i (by simpa using h)

theorem getD_set_ne {α : Type} (d a : α) :
    ∀ (l : List α) (i j : ℕ), i ≠ j → (l.set i a).getD j d = l.getD j d
  | [], _, _, _ => by simp
  | x :: xs, 0, 0, h => absurd rfl h
  | x :: xs, 0, j + 1, _ => rfl
  | x :: xs, i + 1, 0, _ => rfl
  | x :: xs, i + 1, j + 1, h => by
    rw [List.set_cons_succ, List.getD_cons_succ, List.getD_cons_succ]
    exact getD_set_ne d a xs i j (fun hh => h (by omega))

theorem resizeList_cons {α : Type} (x : α) (xs : List α) (n : ℕ) (d : α) :
    resizeList (x :: xs) (n + 1) d = x :: resizeList xs n d := by
  simp [resizeList, Nat.succ_sub_succ]

theorem resizeList_length {α : Type} : ∀ (l : List α) (n : ℕ) (d : α),
    (resizeList l n d).length = n := by
  intro l n d
  simp only [resizeList, List.length_append, List.length_take, List.length_replicate]
  omega

theorem resizeList_getD {α : Type} (d : α) :
    ∀ (l : List α) (n j : ℕ), j < n → (resizeList l n d).getD j d = l.getD j d
  | [], n, j, _ => by
    show (List.take n [] ++ List.replicate (n - 0) d).getD j d = _
    simp only [List.take_nil, List.nil_append, Nat.sub_zero]
    rw [getD_replicate]
    cases j <;> rfl
  | x :: xs, 0, j, h => absurd h (by omega)
  | x :: xs, n + 1, 0, _ => by rw [resizeList_cons]; rfl
  | x :: xs, n + 1, j + 1, h => by
    rw [resizeList_cons, List.getD_cons_succ, List.getD_cons_succ]
    exact resizeList_getD d xs n j (by omega)

/-! ## Histogram partition (dense root aggregate) -/

/-- Folding gradient contributions from a starting accumulator. -/
theorem foldl_addv_shift (v : ℕ → GradStats) :
    ∀ (L : List ℕ) (s : GradStats),
      L.foldl (fun s r => s + v r) s = s + L.foldl (fun s r => s + v r) 0
  | [], s => (GradStats.add_zero s).symm
  | r :: L, s => by
    rw [List.foldl_cons, List.foldl_cons, foldl_addv_shift v L (s + v r),
      foldl_addv_shift v L (0 + v r), GradStats.zero_add, GradStats.addAssoc]

theorem histSum_add_fun (f g : ℕ → GradStats) (a : ℕ) :
    ∀ n, histSum (fun b => f b + g b) a n = histSum f a n + histSum g a n
  | 0 => (GradStats.add_zero _).symm
  | n + 1 => by
    show histSum (fun b => f b + g b) a n + (f (a + n) + g (a + n)) = _
    rw [histSum_add_fun f g a n]
    show _ = histSum f a n + f (a + n) + (histSum g a n + g (a + n))
    rw [GradStats.addAssoc, GradStats.addAssoc]
    congr 1
    rw [← GradStats.addAssoc, ← GradStats.addAssoc]
    congr 1
    apply GradStats.eq_of <;> simp [add_comm]

theorem histSum_indicator (t : ℕ) (x : GradStats) (a : ℕ) :
    ∀ n, histSum (fun b => if t = b then x else 0) a n =
      if a ≤ t ∧ t < a + n then x else 0
  | 0 => by
    rw [if_neg (by omega)]
    rfl
  | n + 1 => by
    show histSum (fun b => if t = b then x else 0) a n +
      (if t = a + n then x else 0) = _
    rw [histSum_indicator t x a n]
    by_cases ht : t = a + n
    · rw [if_pos ht, if_neg (by omega), if_pos (by omega), GradStats.zero_add]
    · rw [if_neg ht]
      by_cases hin : a ≤ t ∧ t < a + n
      · rw [if_pos hin, if_pos (by omega), GradStats.add_zero]
      · rw [if_neg hin, if_neg (by omega), GradStats.add_zero]

theorem histSum_const_zero (a : ℕ) : ∀ n, histSum (fun _ => (0 : GradStats)) a n = 0
  | 0 => rfl
  | n + 1 => by
    show histSum (fun _ => (0 : GradStats)) a n + 0 = 0
    rw [histSum_const_zero a n, GradStats.add_zero]

/-- Summing the per-bin fiber sums over a bin range that contains every
row's bin recovers the plain sum over the rows. -/
theorem histSum_partition (v : ℕ → GradStats) (binOf : ℕ → ℕ) (a n : ℕ) :
    ∀ rows : List ℕ, (∀ r ∈ rows, a ≤ binOf r ∧ binOf r < a + n) →
      histSum (fun b => (rows.filter (fun r => binOf r = b)).foldl
          (fun s r => s + v r) 0) a n =
        rows.foldl (fun s r => s + v r) 0
  | [], _ => by
    have hfun : (fun b => (List.filter (fun r => binOf r = b) []).foldl
        (fun s r => s + v r) 0) = fun _ => (0 : GradStats) := by
      funext b
      rfl
    rw [hfun, histSum_const_zero]
    rfl
  | r :: rows, hin => by
    have hfun : (fun b => ((r :: rows).filter (fun r => binOf r = b)).foldl
        (fun s r => s + v r) 0) =
        fun b => (if binOf r = b then v r else 0) +
          (rows.filter (fun r => binOf r = b)).foldl (fun s r => s + v r) 0 := by
      funext b
      by_cases hb : binOf r = b
      · rw [List.filter_cons_of_pos (by simp [hb]), List.foldl_cons,
          foldl_addv_shift v _ (0 + v r), GradStats.zero_add, if_pos hb]
      · rw [List.filter_cons_of_neg (by simp [hb]), if_neg hb, GradStats.zero_add]
    rw [hfun, histSum_add_fun, histSum_indicator,
      histSum_partition v binOf a n rows
        (fun r' hr' => hin r' (List.mem_cons_of_mem _ hr')),
      if_pos (hin r (List.mem_cons_self r rows)), List.foldl_cons,
      foldl_addv_shift v rows (0 + v r), GradStats.zero_add]

/-! ## EvaluateSplits on two queries for one node -/

@[simp] theorem NodeEntry.best_mk (s : GradStats) (g w : GradT) (b : SplitEntry) :
    (NodeEntry.mk s g w b).best = b := rfl


theorem EvaluateSplits_pair_getD (snode : List NodeEntry) (q1 q2 : SplitQuery)
    (cut_ptr : ℕ → ℕ) (cut_val : ℕ → GradT) (hists : ℕ → ℕ → GradStats)
    (ev : SplitEvaluator) (mcw : GradT) (sgs : ℕ)
    (hq : q2.nid = q1.nid) (hn : q1.nid < snode.length) :
    (EvaluateSplits snode [q1, q2] cut_ptr cut_val hists ev mcw sgs).getD q1.nid
      NodeEntry.init =
    { snode.getD q1.nid NodeEntry.init with
      best := (((snode.getD q1.nid NodeEntry.init).best.Update
        (EnumerateSplit (mkCtx cut_ptr cut_val hists snode ev mcw q1) sgs
          (snode.getD q1.nid NodeEntry.init).best)).Update
        (EnumerateSplit (mkCtx cut_ptr cut_val hists snode ev mcw q2) sgs
          (snode.getD q2.nid NodeEntry.init).best)) } := by
  unfold EvaluateSplits
  dsimp only
  rw [List.map_cons, List.map_cons, List.map_nil, List.zip_cons_cons,
    List.zip_cons_cons, List.zip_nil_right, List.foldl_cons, List.foldl_cons,
    List.foldl_nil]
  have hlen1 : (snode.set q1.nid
      { snode.getD q1.nid NodeEntry.init with
        best := (snode.getD q1.nid NodeEntry.init).best.Update
          (EnumerateSplit (mkCtx cut_ptr cut_val hists snode ev mcw q1) sgs
            (snode.getD q1.nid NodeEntry.init).best) }).length = snode.length :=
    List.length_set _ _ _
  rw [hq]
  rw [getD_set_self NodeEntry.init _ snode q1.nid hn]
  rw [getD_set_self NodeEntry.init _ _ q1.nid (by rw [hlen1]; exact hn)]

/-! ## Claims -/

/-- C1: best-split merging is deterministic: a strictly greater loss_gain
always wins; on an exact loss_gain tie the smaller feature id wins (and the
incumbent survives a tie against an id that is not smaller); consequently,
when a node is evaluated over two features whose best splits carry identical
positive loss_gain, the merged best split recorded for the node carries the
smaller feature id, in either query order. -/
theorem claim_C1 :
    (∀ s e : SplitEntry, s.loss_chg < e.loss_chg → s.Update e = e) ∧
    (∀ s e : SplitEntry, e.loss_chg = s.loss_chg → e.SplitIndex < s.SplitIndex →
      s.Update e = e) ∧
    (∀ s e : SplitEntry, e.loss_chg = s.loss_chg → s.SplitIndex ≤ e.SplitIndex →
      s.Update e = s) ∧
    (∀ (cut_ptr : ℕ → ℕ) (cut_val : ℕ → GradT) (hists : ℕ → ℕ → GradStats)
       (ev : SplitEvaluator) (mcw : GradT) (sgs n nid f1 f2 : ℕ),
      nid < n → f1 < f2 →
      0 < (EnumerateSplit (mkCtx cut_ptr cut_val hists (List.replicate n NodeEntry.init)
            ev mcw ⟨nid, f1⟩) sgs SplitEntry.init).loss_chg →
      (EnumerateSplit (mkCtx cut_ptr cut_val hists (List.replicate n NodeEntry.init)
            ev mcw ⟨nid, f1⟩) sgs SplitEntry.init).loss_chg =
        (EnumerateSplit (mkCtx cut_ptr cut_val hists (List.replicate n NodeEntry.init)
            ev mcw ⟨nid, f2⟩) sgs SplitEntry.init).loss_chg →
      (EnumerateSplit (mkCtx cut_ptr cut_val hists (List.replicate n NodeEntry.init)
            ev mcw ⟨nid, f1⟩) sgs SplitEntry.init).SplitIndex = f1 →
      (EnumerateSplit (mkCtx cut_ptr cut_val hists (List.replicate n NodeEntry.init)
            ev mcw ⟨nid, f2⟩) sgs SplitEntry.init).SplitIndex = f2 →
      ((EvaluateSplits (List.replicate n NodeEntry.init) [⟨nid, f1⟩, ⟨nid, f2⟩]
          cut_ptr cut_val hists ev mcw sgs).getD nid NodeEntry.init).best.SplitIndex = f1 ∧
      ((EvaluateSplits (List.replicate n NodeEntry.init) [⟨nid, f2⟩, ⟨nid, f1⟩]
          cut_ptr cut_val hists ev mcw sgs).getD nid NodeEntry.init).best.SplitIndex = f1) := by
  refine ⟨?_, ?_, ?_, ?_⟩
  · intro s e h
    exact Update_of_true (by rw [NeedReplace_iff]; exact Or.inl h)
  · intro s e h1 h2
    exact Update_of_true (by rw [NeedReplace_iff]; exact Or.inr ⟨h1, h2⟩)
  · intro s e h1 h2
    apply Update_of_false
    exact NeedReplace_false_of_same s e h1.symm h2
  · intro cut_ptr cut_val hists ev mcw sgs n nid f1 f2 hn hf hpos hloss hi1 hi2
    have hgetD : (List.replicate n NodeEntry.init).getD nid NodeEntry.init =
        NodeEntry.init := getD_replicate NodeEntry.init n nid
    have hlen : (List.replicate n NodeEntry.init).length = n := List.length_replicate n _
    set E1 := EnumerateSplit (mkCtx cut_ptr cut_val hists (List.replicate n NodeEntry.init)
      ev mcw ⟨nid, f1⟩) sgs SplitEntry.init with hE1
    set E2 := EnumerateSplit (mkCtx cut_ptr cut_val hists (List.replicate n NodeEntry.init)
      ev mcw ⟨nid, f2⟩) sgs SplitEntry.init with hE2
    have hstep1 : SplitEntry.init.Update E1 = E1 :=
      Update_of_true (by
        rw [NeedReplace_iff]
        exact Or.inl hpos)
    have hstep2 : SplitEntry.init.Update E2 = E2 :=
      Update_of_true (by
        rw [NeedReplace_iff]
        exact Or.inl (by rw [← hloss]; exact hpos))
    have hkeep : E1.Update E2 = E1 :=
      Update_of_false (NeedReplace_false_of_same E1 E2 hloss (by rw [hi1, hi2]; omega))
    have hwin : E2.Update E1 = E1 :=
      Update_of_true (by
        rw [NeedReplace_iff]
        exact Or.inr ⟨hloss, by rw [hi1, hi2]; omega⟩)
    constructor
    · rw [EvaluateSplits_pair_getD (List.replicate n NodeEntry.init)
        ⟨nid, f1⟩ ⟨nid, f2⟩ cut_ptr cut_val hists ev mcw sgs rfl (by rw [hlen]; exact hn)]
      rw [NodeEntry.best_mk]
      dsimp only
      rw [hgetD, show NodeEntry.init.best = SplitEntry.init from rfl, ← hE1, ← hE2,
        hstep1, hkeep]
      exact hi1
    · rw [EvaluateSplits_pair_getD (List.replicate n NodeEntry.init)
        ⟨nid, f2⟩ ⟨nid, f1⟩ cut_ptr cut_val hists ev mcw sgs rfl (by rw [hlen]; exact hn)]
      rw [NodeEntry.best_mk]
      dsimp only
      rw [hgetD, show NodeEntry.init.best = SplitEntry.init from rfl, ← hE1, ← hE2,
        hstep2, hwin]
      exact hi1

/-- A constant-gain evaluator used for concrete instances. -/
def C1ev : SplitEvaluator := ⟨fun _ _ _ _ => 1, fun _ _ => 0, fun _ _ => 0⟩

theorem claim_C1_witness :
    ((EvaluateSplits (List.replicate 1 NodeEntry.init) [⟨0, 0⟩, ⟨0, 1⟩]
        (fun f => f) (fun _ => 0) (fun _ _ => ⟨0, 0⟩) C1ev 0 1).getD 0
        NodeEntry.init).best.SplitIndex = 0 ∧
    ((EvaluateSplits (List.replicate 1 NodeEntry.init) [⟨0, 1⟩, ⟨0, 0⟩]
        (fun f => f) (fun _ => 0) (fun _ _ => ⟨0, 0⟩) C1ev 0 1).getD 0
        NodeEntry.init).best.SplitIndex = 0 :=
  claim_C1.2.2.2 (fun f => f) (fun _ => 0) (fun _ _ => ⟨0, 0⟩) C1ev 0 1 1 0 0 1
    (by decide) (by decide) (by decide) (by decide) (by decide) (by decide)

/-- An evaluator whose gain depends only on the left Hessian sum, producing
a loss-gain tie between bin positions 1 and 2 of feature 0. -/
def C2ev : SplitEvaluator :=
  ⟨fun _ _ l _ => if l.sum_hess = 1 then 0 else 10, fun _ _ => 0, fun _ _ => 0⟩

/-- One feature with bins [0, 3), unit Hessian per bin. -/
def C2ctx : EnumCtx :=
  { cut_ptr := fun f => if f = 0 then 0 else 3
    cut_val := fun i => (i : GradT)
    hist_data := fun _ => ⟨0, 1⟩
    snode := { stats := ⟨0, 3⟩, root_gain := 0, weight := 0, best := SplitEntry.init }
    fid := 0
    nodeID := 0
    evaluator := C2ev
    min_child_weight := 0 }

/-- C2 counterexample: with a loss-gain tie between two bin positions of
the same feature, sub-group size 2 records a different best split (different
threshold and child sums) than the sequential size-1 scan. -/
theorem claim_C2_counterexample :
    EnumerateSplit C2ctx 2 SplitEntry.init ≠ EnumerateSplit C2ctx 1 SplitEntry.init := by
  decide

/-- C2 (amended): for every positive sub-group size, EnumerateSplit merges
into the shared best a split with the same loss change and the same sindex
(hence the same feature id and default direction) as the sequential size-1
scan; the threshold and child sums may come from a different tied position. -/
theorem claim_C2 (c : EnumCtx) (sub_group_size : ℕ) (hs : 1 ≤ sub_group_size)
    (p_best : SplitEntry) :
    (EnumerateSplit c sub_group_size p_best).loss_chg =
      (EnumerateSplit c 1 p_best).loss_chg ∧
    (EnumerateSplit c sub_group_size p_best).sindex =
      (EnumerateSplit c 1 p_best).sindex :=
  EnumerateSplit_agree_aux c sub_group_size hs p_best

theorem claim_C2_witness :
    (EnumerateSplit C2ctx 2 SplitEntry.init).loss_chg =
      (EnumerateSplit C2ctx 1 SplitEntry.init).loss_chg ∧
    (EnumerateSplit C2ctx 2 SplitEntry.init).sindex =
      (EnumerateSplit C2ctx 1 SplitEntry.init).sindex :=
  claim_C2 C2ctx 2 (by decide) SplitEntry.init

/-- C3: along each lane, the best entry is the in-order fold of the
candidates at the lane's positions, where the candidate at position i has
left sum = the inclusive histogram sum over bins [ibegin, i], right sum =
node total minus left sum, loss change = CalcSplitGain minus the node's
root gain, and threshold = cut_val[i]; moreover the lanes' positions are
exactly the candidate positions of [ibegin, iend). -/
theorem claim_C3 (c : EnumCtx) (sub_group_size : ℕ) (hs : 1 ≤ sub_group_size)
    (l : ℕ) (hl : l < sub_group_size) :
    (enumLanes c sub_group_size l).best =
      (lanePositions c sub_group_size l).foldl (fun b i =>
        if c.min_child_weight ≤ (leftSumAt c i).GetHess ∧
           c.min_child_weight ≤ (rightSumAt c i).GetHess
        then b.UpdateCand
          (c.evaluator.CalcSplitGain c.nodeID c.fid (leftSumAt c i) (rightSumAt c i) -
            c.snode.root_gain)
          c.fid (c.cut_val i) false (leftSumAt c i) (rightSumAt c i)
        else b) SplitEntry.init ∧
    (∀ i ∈ lanePositions c sub_group_size l, c.ibegin ≤ i ∧ i < c.iend) ∧
    (∀ i, c.ibegin ≤ i → i < c.iend →
      i ∈ lanePositions c sub_group_size ((i - c.ibegin) % sub_group_size)) := by
  refine ⟨?_, fun i hi => lanePositions_range hi,
    fun i h1 h2 => (mem_lanePositions_self c sub_group_size hs h1 h2).2⟩
  rw [enumLanes_best c sub_group_size l hl]
  unfold laneFold
  have hfun : laneStep c = fun b i =>
      if c.min_child_weight ≤ (leftSumAt c i).GetHess ∧
         c.min_child_weight ≤ (rightSumAt c i).GetHess
      then b.UpdateCand
        (c.evaluator.CalcSplitGain c.nodeID c.fid (leftSumAt c i) (rightSumAt c i) -
          c.snode.root_gain)
        c.fid (c.cut_val i) false (leftSumAt c i) (rightSumAt c i)
      else b := by
    funext b i
    rw [laneStep_eq]
    rfl
  rw [hfun]

/-- One feature with bins [0, 3), evaluator returning the left Hessian sum. -/
def C3ctx : EnumCtx :=
  { cut_ptr := fun f => if f = 0 then 0 else 3
    cut_val := fun i => (i : GradT)
    hist_data := fun _ => ⟨1, 1⟩
    snode := { stats := ⟨3, 3⟩, root_gain := 0, weight := 0, best := SplitEntry.init }
    fid := 0
    nodeID := 0
    evaluator := ⟨fun _ _ l _ => l.sum_hess, fun _ _ => 0, fun _ _ => 0⟩
    min_child_weight := 0 }

theorem claim_C3_witness :
    (enumLanes C3ctx 2 1).best =
      (lanePositions C3ctx 2 1).foldl (fun b i =>
        if C3ctx.min_child_weight ≤ (leftSumAt C3ctx i).GetHess ∧
           C3ctx.min_child_weight ≤ (rightSumAt C3ctx i).GetHess
        then b.UpdateCand
          (C3ctx.evaluator.CalcSplitGain C3ctx.nodeID C3ctx.fid (leftSumAt C3ctx i)
            (rightSumAt C3ctx i) - C3ctx.snode.root_gain)
          C3ctx.fid (C3ctx.cut_val i) false (leftSumAt C3ctx i) (rightSumAt C3ctx i)
        else b) SplitEntry.init :=
  (claim_C3 C3ctx 2 (by decide) 1 (by decide)).1

/-- C4: a candidate is considered exactly when both the left and the right
partial Hessian sums are at least min_child_weight; the boundary is
inclusive on both sides, and a sum strictly below rejects the candidate. -/
theorem claim_C4 (c : EnumCtx) (best : SplitEntry) (sum : GradStats) (i : ℕ) :
    (enumCheck c best sum i =
      if c.min_child_weight ≤ sum.GetHess ∧
         c.min_child_weight ≤ (c.snode.stats - sum).GetHess
      then best.UpdateCand
        (c.evaluator.CalcSplitGain c.nodeID c.fid sum (c.snode.stats - sum) -
          c.snode.root_gain) c.fid (c.cut_val i) false sum (c.snode.stats - sum)
      else best) ∧
    (sum.GetHess = c.min_child_weight →
      c.min_child_weight ≤ (c.snode.stats - sum).GetHess →
      enumCheck c best sum i = best.UpdateCand
        (c.evaluator.CalcSplitGain c.nodeID c.fid sum (c.snode.stats - sum) -
          c.snode.root_gain) c.fid (c.cut_val i) false sum (c.snode.stats - sum)) ∧
    (c.min_child_weight ≤ sum.GetHess →
      (c.snode.stats - sum).GetHess = c.min_child_weight →
      enumCheck c best sum i = best.UpdateCand
        (c.evaluator.CalcSplitGain c.nodeID c.fid sum (c.snode.stats - sum) -
          c.snode.root_gain) c.fid (c.cut_val i) false sum (c.snode.stats - sum)) ∧
    (sum.GetHess < c.min_child_weight → enumCheck c best sum i = best) ∧
    ((c.snode.stats - sum).GetHess < c.min_child_weight →
      enumCheck c best sum i = best) := by
  have hmain : enumCheck c best sum i =
      if c.min_child_weight ≤ sum.GetHess ∧
         c.min_child_weight ≤ (c.snode.stats - sum).GetHess
      then best.UpdateCand
        (c.evaluator.CalcSplitGain c.nodeID c.fid sum (c.snode.stats - sum) -
          c.snode.root_gain) c.fid (c.cut_val i) false sum (c.snode.stats - sum)
      else best := by
    unfold enumCheck
    by_cases h1 : c.min_child_weight ≤ sum.GetHess
    · by_cases h2 : c.min_child_weight ≤ (c.snode.stats - sum).GetHess
      · simp [h1, h2]
      · simp [h1, h2]
    · simp [h1]
  refine ⟨hmain, ?_, ?_, ?_, ?_⟩
  · intro h1 h2
    rw [hmain, if_pos ⟨le_of_eq h1.symm, h2⟩]
  · intro h1 h2
    rw [hmain, if_pos ⟨h1, le_of_eq h2.symm⟩]
  · intro h1
    rw [hmain, if_neg (fun hc => absurd hc.1 (not_le.mpr h1))]
  · intro h1
    rw [hmain, if_neg (fun hc => absurd hc.2 (not_le.mpr h1))]

/-- min_child_weight 1, node Hessian total 2: a split with both child
Hessian sums exactly 1 sits on the boundary. -/
def C4ctx : EnumCtx :=
  { cut_ptr := fun f => if f = 0 then 0 else 2
    cut_val := fun i => (i : GradT)
    hist_data := fun _ => ⟨0, 1⟩
    snode := { stats := ⟨0, 2⟩, root_gain := 0, weight := 0, best := SplitEntry.init }
    fid := 0
    nodeID := 0
    evaluator := C1ev
    min_child_weight := 1 }

theorem claim_C4_witness :
    enumCheck C4ctx SplitEntry.init ⟨0, 1⟩ 0 = SplitEntry.init.UpdateCand
      (C4ctx.evaluator.CalcSplitGain C4ctx.nodeID C4ctx.fid ⟨0, 1⟩
        (C4ctx.snode.stats - ⟨0, 1⟩) - C4ctx.snode.root_gain)
      C4ctx.fid (C4ctx.cut_val 0) false ⟨0, 1⟩ (C4ctx.snode.stats - ⟨0, 1⟩) :=
  (claim_C4 C4ctx SplitEntry.init ⟨0, 1⟩ 0).2.1 (by decide) (by decide)

theorem getD_range : ∀ (n i : ℕ), i < n → (List.range n).getD i 0 = i := by
  intro n i hi
  rw [List.getD_eq_getElem (List.range n) 0 (by simpa using hi)]
  simp

/-- C5: with subsample rate 1.0 (the non-subsampling path) and every row's
Hessian nonnegative, InitData's row-set initialization produces exactly the
identity row set, with row i at position i, the seed counter untouched; the
negative-Hessian compaction branch is not taken. -/
theorem claim_C5 (param : TrainParam) (rnd : ℚ → ℕ → ℕ → Bool) (seed : ℕ)
    (gpair : List GradientPair) (num_row : ℕ)
    (hsub : 1 ≤ param.subsample)
    (hck1 : 0 < param.max_depth ∨ 0 < param.max_leaves)
    (hck2 : param.grow_policy = GrowPolicy.kDepthWise → 0 < param.max_depth)
    (hhess : ∀ i, i < num_row → 0 ≤ (gpair.getD i default).GetHess) :
    initDataRowSet param rnd seed gpair num_row = Except.ok (List.range num_row, seed) ∧
    ∀ i, i < num_row → (List.range num_row).getD i 0 = i := by
  refine ⟨?_, fun i hi => getD_range num_row i hi⟩
  have hneg : (List.range num_row).any
      (fun i => decide ((gpair.getD i default).GetHess < 0)) = false := by
    rw [Bool.eq_false_iff]
    intro hcon
    rw [List.any_eq_true] at hcon
    obtain ⟨i, hm, hp⟩ := hcon
    rw [decide_eq_true_eq] at hp
    exact absurd hp (not_lt.mpr (hhess i (List.mem_range.mp hm)))
  unfold initDataRowSet
  rw [if_neg (not_not_intro hck1),
    if_neg (fun hc => absurd (hck2 hc.1) hc.2),
    if_neg (not_lt.mpr hsub)]
  dsimp only
  rw [hneg, if_neg Bool.false_ne_true]

/-- Uniform-configuration used for concrete instances of the full-row path. -/
def C5param : TrainParam :=
  ⟨6, 0, GrowPolicy.kDepthWise, 1, SamplingMethod.kUniform, 1⟩

theorem claim_C5_witness :
    initDataRowSet C5param (fun _ _ _ => true) 7 [⟨1, 1⟩, ⟨1, 2⟩, ⟨1, 0⟩] 3 =
      Except.ok (List.range 3, 7) ∧
    ∀ i, i < 3 → (List.range 3).getD i 0 = i :=
  claim_C5 C5param (fun _ _ _ => true) 7 [⟨1, 1⟩, ⟨1, 2⟩, ⟨1, 0⟩] 3
    (by decide) (by decide) (by decide) (by decide)

theorem InitSampling_mem (rnd : ℚ → ℕ → ℕ → Bool) (seed : ℕ) (subsample : ℚ)
    (gpair : List GradientPair) (row_indices : List ℕ) :
    (∀ r ∈ (InitSampling rnd seed subsample gpair row_indices).1,
      0 ≤ (gpair.getD r default).GetHess) ∧
    (InitSampling rnd seed subsample gpair row_indices).1.length =
      ((List.range row_indices.length).filter (fun i =>
        decide (0 ≤ (gpair.getD i default).GetHess) && rnd subsample seed i)).length := by
  unfold InitSampling
  dsimp only
  rw [compactKept_spec _ _ _ (le_refl _)]
  refine ⟨?_, rfl⟩
  intro r hr
  have hp := (List.mem_filter.mp hr).2
  simp only [Bool.and_eq_true, decide_eq_true_eq] at hp
  exact hp.1

/-- C6: for every subsample rate and gradient input, no negative-Hessian row
appears in the produced row set — in the Bernoulli path of InitSampling and
in every successful path of InitData's row-set initialization — and the
output is resized to the exact number of rows kept: in the Bernoulli path
the number of rows passing the Hessian-and-draw test, in the subsample-1
paths the number of nonnegative-Hessian rows. -/
theorem claim_C6 :
    (∀ (rnd : ℚ → ℕ → ℕ → Bool) (seed : ℕ) (subsample : ℚ)
       (gpair : List GradientPair) (row_indices : List ℕ),
      (∀ r ∈ (InitSampling rnd seed subsample gpair row_indices).1,
        0 ≤ (gpair.getD r default).GetHess) ∧
      (InitSampling rnd seed subsample gpair row_indices).1.length =
        ((List.range row_indices.length).filter (fun i =>
          decide (0 ≤ (gpair.getD i default).GetHess) && rnd subsample seed i)).length) ∧
    (∀ (param : TrainParam) (rnd : ℚ → ℕ → ℕ → Bool) (seed : ℕ)
       (gpair : List GradientPair) (num_row : ℕ) (rows : List ℕ) (seed' : ℕ),
      initDataRowSet param rnd seed gpair num_row = Except.ok (rows, seed') →
      (∀ r ∈ rows, 0 ≤ (gpair.getD r default).GetHess) ∧
      (1 ≤ param.subsample →
        rows.length = ((List.range num_row).filter (fun i =>
          decide (0 ≤ (gpair.getD i default).GetHess))).length)) := by
  refine ⟨fun rnd seed subsample gpair row_indices =>
    InitSampling_mem rnd seed subsample gpair row_indices, ?_⟩
  intro param rnd seed gpair num_row rows seed' hok
  unfold initDataRowSet at hok
  by_cases h1 : ¬(0 < param.max_depth ∨ 0 < param.max_leaves)
  · rw [if_pos h1] at hok
    exact absurd hok (by simp)
  rw [if_neg h1] at hok
  by_cases h2 : param.grow_policy = GrowPolicy.kDepthWise ∧ ¬0 < param.max_depth
  · rw [if_pos h2] at hok
    exact absurd hok (by simp)
  rw [if_neg h2] at hok
  by_cases h3 : param.subsample < 1
  · rw [if_pos h3] at hok
    by_cases h4 : param.sampling_method ≠ SamplingMethod.kUniform
    · rw [if_pos h4] at hok
      exact absurd hok (by simp)
    · rw [if_neg h4] at hok
      injection hok with hok
      have hrows : rows = (InitSampling rnd seed param.subsample gpair
          (List.range num_row)).1 := (congrArg Prod.fst hok).symm
      have hmem := InitSampling_mem rnd seed param.subsample gpair (List.range num_row)
      refine ⟨fun r hr => hmem.1 r (by rw [← hrows]; exact hr),
        fun hsub => absurd h3 (not_lt.mpr hsub)⟩
  · rw [if_neg h3] at hok
    dsimp only at hok
    by_cases h5 : (List.range num_row).any
        (fun i => decide ((gpair.getD i default).GetHess < 0)) = true
    · rw [if_pos h5] at hok
      injection hok with hok
      have hrows : rows = (compactKept
          (fun i => decide (0 ≤ (gpair.getD i default).GetHess)) num_row
          (List.range num_row)).1 := (congrArg Prod.fst hok).symm
      rw [compactKept_spec _ _ _ (by rw [List.length_range])] at hrows
      constructor
      · intro r hr
        rw [hrows] at hr
        have hp := (List.mem_filter.mp hr).2
        rwa [decide_eq_true_eq] at hp
      · intro _
        rw [hrows]
    · rw [if_neg h5] at hok
      injection hok with hok
      have hrows : rows = List.range num_row := (congrArg Prod.fst hok).symm
      have hpos : ∀ i ∈ List.range num_row, 0 ≤ (gpair.getD i default).GetHess := by
        intro i hi
        by_contra hcon
        apply h5
        rw [List.any_eq_true]
        exact ⟨i, hi, by rw [decide_eq_true_eq]; exact lt_of_not_le hcon⟩
      constructor
      · intro r hr
        exact hpos r (by rw [← hrows]; exact hr)
      · intro _
        rw [hrows, List.filter_eq_self.mpr
          (fun i hi => by rw [decide_eq_true_eq]; exact hpos i hi)]

theorem claim_C6_witness :
    (∀ r ∈ (InitSampling (fun _ _ i => decide (i % 2 = 0)) 5 (1 / 2)
        [⟨1, 1⟩, ⟨1, -1⟩, ⟨1, 0⟩, ⟨1, 4⟩] [9, 9, 9, 9]).1,
      0 ≤ (([⟨1, 1⟩, ⟨1, -1⟩, ⟨1, 0⟩, ⟨1, 4⟩] : List GradientPair).getD r
        default).GetHess) ∧
    (InitSampling (fun _ _ i => decide (i % 2 = 0)) 5 (1 / 2)
        [⟨1, 1⟩, ⟨1, -1⟩, ⟨1, 0⟩, ⟨1, 4⟩] [9, 9, 9, 9]).1.length =
      ((List.range 4).filter (fun i =>
        decide (0 ≤ (([⟨1, 1⟩, ⟨1, -1⟩, ⟨1, 0⟩, ⟨1, 4⟩] : List GradientPair).getD i
          default).GetHess) && decide (i % 2 = 0))).length :=
  claim_C6.1 (fun _ _ i => decide (i % 2 = 0)) 5 (1 / 2)
    [⟨1, 1⟩, ⟨1, -1⟩, ⟨1, 0⟩, ⟨1, 4⟩] [9, 9, 9, 9]

/-- A configuration requesting gradient-based sampling with subsample = 1. -/
def C7param : TrainParam :=
  ⟨6, 0, GrowPolicy.kDepthWise, 1, SamplingMethod.kGradientBased, 1⟩

/-- C7 counterexample: gradient-based sampling is requested, yet InitData
succeeds, because the sampling-method check only runs when subsample < 1. -/
theorem claim_C7_counterexample :
    C7param.sampling_method ≠ SamplingMethod.kUniform ∧
    initDataRowSet C7param (fun _ _ _ => true) 0 [⟨1, 1⟩, ⟨1, 1⟩] 2 =
      Except.ok ([0, 1], 0) := by
  constructor
  · decide
  · rfl

/-- C7 (amended): when a sampling method other than uniform is requested
together with subsample < 1 — the only configurations in which the sampling
engine runs — InitData fails fast with an unrecoverable error; with
subsample = 1 the sampling method is not inspected. -/
theorem claim_C7 (param : TrainParam) (rnd : ℚ → ℕ → ℕ → Bool) (seed : ℕ)
    (gpair : List GradientPair) (num_row : ℕ)
    (hsub : param.subsample < 1)
    (hmeth : param.sampling_method ≠ SamplingMethod.kUniform) :
    ∃ msg, initDataRowSet param rnd seed gpair num_row = Except.error msg := by
  unfold initDataRowSet
  by_cases h1 : ¬(0 < param.max_depth ∨ 0 < param.max_leaves)
  · rw [if_pos h1]
    exact ⟨_, rfl⟩
  rw [if_neg h1]
  by_cases h2 : param.grow_policy = GrowPolicy.kDepthWise ∧ ¬0 < param.max_depth
  · rw [if_pos h2]
    exact ⟨_, rfl⟩
  rw [if_neg h2, if_pos hsub, if_pos hmeth]
  exact ⟨_, rfl⟩

/-- A configuration requesting gradient-based sampling with subsample 0. -/
def C7param2 : TrainParam :=
  ⟨6, 0, GrowPolicy.kDepthWise, 0, SamplingMethod.kGradientBased, 1⟩

theorem claim_C7_witness :
    ∃ msg, initDataRowSet C7param2 (fun _ _ _ => true) 0 [] 0 = Except.error msg :=
  claim_C7 C7param2 (fun _ _ _ => true) 0 [] 0 (by decide) (by decide)

@[simp] theorem NodeEntry.stats_mk (s : GradStats) (g w : GradT) (b : SplitEntry) :
    (NodeEntry.mk s g w b).stats = s := rfl

/-- C8: for a non-root node, InitNewNode copies the node's aggregate
verbatim from its parent's recorded best-split left sum (left child) or
right sum (right child), and the whole result is independent of the
gradient data, the histogram, the row extent and the collective allreduce. -/
theorem claim_C8 (nid : ℕ) (tree : RegTreeModel) (snode : List NodeEntry)
    (data_layout : DataLayout) (fid_least_bins : ℕ) (row_ptr : ℕ → ℕ)
    (hist : ℕ → GradStats) (rows : List ℕ) (gpair : List GradientPair)
    (allreduce : GradStats → GradStats) (evaluator : SplitEvaluator)
    (hroot : (tree.nodes.getD nid default).is_root = false)
    (hn : nid < tree.nodes.length)
    (hps : snode.length ≤ tree.nodes.length)
    (hp : (tree.nodes.getD nid default).parent < snode.length) :
    ((InitNewNode nid tree snode data_layout fid_least_bins row_ptr hist rows gpair
        allreduce evaluator).getD nid NodeEntry.init).stats =
      (if (tree.nodes.getD nid default).is_left_child
       then (snode.getD (tree.nodes.getD nid default).parent NodeEntry.init).best.left_sum
       else (snode.getD (tree.nodes.getD nid default).parent NodeEntry.init).best.right_sum) ∧
    (∀ (hist' : ℕ → GradStats) (rows' : List ℕ) (gpair' : List GradientPair)
       (allreduce' : GradStats → GradStats),
      InitNewNode nid tree snode data_layout fid_least_bins row_ptr hist rows gpair
        allreduce evaluator =
      InitNewNode nid tree snode data_layout fid_least_bins row_ptr hist' rows' gpair'
        allreduce' evaluator) := by
  constructor
  · unfold InitNewNode
    dsimp only
    rw [hroot]
    simp only [Bool.false_eq_true, if_false]
    rw [getD_set_self NodeEntry.init _ _ nid (by rw [resizeList_length]; exact hn)]
    rw [NodeEntry.stats_mk]
    rw [resizeList_getD NodeEntry.init snode tree.nodes.length _ (lt_of_lt_of_le hp hps)]
  · intro hist' rows' gpair' allreduce'
    unfold InitNewNode
    dsimp only
    rw [hroot]
    simp only [Bool.false_eq_true, if_false]

/-- A two-node tree: node 0 is the root, node 1 its left child. -/
def C8tree : RegTreeModel := ⟨[⟨0, false, true⟩, ⟨0, true, false⟩]⟩

/-- A single recorded entry for the root, with a best split carrying
distinct left and right sums. -/
def C8snode : List NodeEntry :=
  [{ stats := ⟨1, 1⟩, root_gain := 0, weight := 0,
     best := { loss_chg := 2, sindex := 0, split_value := 0,
               left_sum := ⟨5, 6⟩, right_sum := ⟨7, 8⟩ } }]

theorem claim_C8_witness :
    ((InitNewNode 1 C8tree C8snode DataLayout.kSparseData 0 (fun _ => 0)
        (fun _ => ⟨0, 0⟩) [] [] (fun s => s) C1ev).getD 1 NodeEntry.init).stats =
      (if (C8tree.nodes.getD 1 default).is_left_child
       then (C8snode.getD (C8tree.nodes.getD 1 default).parent NodeEntry.init).best.left_sum
       else (C8snode.getD (C8tree.nodes.getD 1 default).parent
         NodeEntry.init).best.right_sum) :=
  (claim_C8 1 C8tree C8snode DataLayout.kSparseData 0 (fun _ => 0) (fun _ => ⟨0, 0⟩)
    [] [] (fun s => s) C1ev (by decide) (by decide) (by decide) (by decide)).1

/-- C9: for a root node on a dense layout, summing the (spec-modelled)
histogram of the least-bins feature over that feature's bin range yields
exactly the aggregate that the sparse path computes by direct reduction
over the node's gradient pairs, whenever every row has a bin for that
feature in its range; hence InitNewNode produces identical results on the
two layouts. -/
theorem claim_C9 (nid : ℕ) (tree : RegTreeModel) (snode : List NodeEntry)
    (fid_least_bins : ℕ) (row_ptr : ℕ → ℕ) (rows : List ℕ)
    (gpair : List GradientPair) (binOf : ℕ → ℕ)
    (allreduce : GradStats → GradStats) (evaluator : SplitEvaluator)
    (hroot : (tree.nodes.getD nid default).is_root = true)
    (hbins : ∀ r ∈ rows, row_ptr fid_least_bins ≤ binOf r ∧
      binOf r < row_ptr (fid_least_bins + 1)) :
    InitNewNode nid tree snode DataLayout.kDenseDataZeroBased fid_least_bins row_ptr
        (specHistogram rows gpair binOf) rows gpair allreduce evaluator =
      InitNewNode nid tree snode DataLayout.kSparseData fid_least_bins row_ptr
        (specHistogram rows gpair binOf) rows gpair allreduce evaluator := by
  have hmain : histSum (specHistogram rows gpair binOf) (row_ptr fid_least_bins)
      (row_ptr (fid_least_bins + 1) - row_ptr fid_least_bins) =
      rows.foldl (fun s r => s + (⟨(gpair.getD r default).GetGrad,
        (gpair.getD r default).GetHess⟩ : GradStats)) 0 := by
    unfold specHistogram
    exact histSum_partition (fun r => ⟨(gpair.getD r default).GetGrad,
      (gpair.getD r default).GetHess⟩) binOf _ _ rows
      (fun r hr => ⟨(hbins r hr).1, by have := hbins r hr; omega⟩)
  unfold InitNewNode
  dsimp only
  rw [hroot]
  simp only [eq_self_iff_true, if_true, true_or]
  rw [if_neg (show ¬(DataLayout.kSparseData = DataLayout.kDenseDataZeroBased ∨
      DataLayout.kSparseData = DataLayout.kDenseDataOneBased) by simp)]
  rw [hmain]

/-- A one-node tree holding only the root. -/
def C9tree : RegTreeModel := ⟨[⟨0, false, true⟩]⟩

theorem claim_C9_witness :
    InitNewNode 0 C9tree [] DataLayout.kDenseDataZeroBased 0
        (fun f => if f = 0 then 0 else 2)
        (specHistogram [0, 1] [⟨1, 2⟩, ⟨3, 4⟩] (fun r => r)) [0, 1] [⟨1, 2⟩, ⟨3, 4⟩]
        (fun s => s) C1ev =
      InitNewNode 0 C9tree [] DataLayout.kSparseData 0
        (fun f => if f = 0 then 0 else 2)
        (specHistogram [0, 1] [⟨1, 2⟩, ⟨3, 4⟩] (fun r => r)) [0, 1] [⟨1, 2⟩, ⟨3, 4⟩]
        (fun s => s) C1ev :=
  claim_C9 0 C9tree [] 0 (fun f => if f = 0 then 0 else 2) [0, 1] [⟨1, 2⟩, ⟨3, 4⟩]
    (fun r => r) (fun s => s) C1ev (by decide) (by decide)

/-- C10: InitNewNode touches only entry nid: the statistics array is resized
to the tree's node count, every other index keeps exactly the value the
resized array holds there (in particular every previously existing entry,
including its recorded best split, is preserved), and even entry nid keeps
its best split unchanged. -/
theorem claim_C10 (nid : ℕ) (tree : RegTreeModel) (snode : List NodeEntry)
    (data_layout : DataLayout) (fid_least_bins : ℕ) (row_ptr : ℕ → ℕ)
    (hist : ℕ → GradStats) (rows : List ℕ) (gpair : List GradientPair)
    (allreduce : GradStats → GradStats) (evaluator : SplitEvaluator)
    (hn : nid < tree.nodes.length)
    (hgrow : snode.length ≤ tree.nodes.length) :
    (InitNewNode nid tree snode data_layout fid_least_bins row_ptr hist rows gpair
      allreduce evaluator).length = tree.nodes.length ∧
    (∀ j, j ≠ nid →
      (InitNewNode nid tree snode data_layout fid_least_bins row_ptr hist rows gpair
        allreduce evaluator).getD j NodeEntry.init =
      (resizeList snode tree.nodes.length NodeEntry.init).getD j NodeEntry.init) ∧
    (∀ j, j < snode.length → j ≠ nid →
      (InitNewNode nid tree snode data_layout fid_least_bins row_ptr hist rows gpair
        allreduce evaluator).getD j NodeEntry.init = snode.getD j NodeEntry.init) ∧
    ((InitNewNode nid tree snode data_layout fid_least_bins row_ptr hist rows gpair
        allreduce evaluator).getD nid NodeEntry.init).best =
      ((resizeList snode tree.nodes.length NodeEntry.init).getD nid
        NodeEntry.init).best := by
  unfold InitNewNode
  dsimp only
  refine ⟨?_, ?_, ?_, ?_⟩
  · rw [List.length_set, resizeList_length]
  · intro j hj
    exact getD_set_ne NodeEntry.init _ _ nid j (fun h => hj h.symm)
  · intro j hjl hj
    rw [getD_set_ne NodeEntry.init _ _ nid j (fun h => hj h.symm)]
    exact resizeList_getD NodeEntry.init snode tree.nodes.length j
      (lt_of_lt_of_le hjl hgrow)
  · rw [getD_set_self NodeEntry.init _ _ nid (by rw [resizeList_length]; exact hn)]

theorem claim_C10_witness :
    (InitNewNode 1 C8tree C8snode DataLayout.kSparseData 0 (fun _ => 0)
      (fun _ => ⟨0, 0⟩) [] [] (fun s => s) C1ev).length = C8tree.nodes.length ∧
    ((InitNewNode 1 C8tree C8snode DataLayout.kSparseData 0 (fun _ => 0)
        (fun _ => ⟨0, 0⟩) [] [] (fun s => s) C1ev).getD 0 NodeEntry.init =
      C8snode.getD 0 NodeEntry.init) ∧
    ((InitNewNode 1 C8tree C8snode DataLayout.kSparseData 0 (fun _ => 0)
        (fun _ => ⟨0, 0⟩) [] [] (fun s => s) C1ev).getD 1 NodeEntry.init).best =
      ((resizeList C8snode C8tree.nodes.length NodeEntry.init).getD 1
        NodeEntry.init).best :=
  ⟨(claim_C10 1 C8tree C8snode DataLayout.kSparseData 0 (fun _ => 0)
      (fun _ => ⟨0, 0⟩) [] [] (fun s => s) C1ev (by decide) (by decide)).1,
   (claim_C10 1 C8tree C8snode DataLayout.kSparseData 0 (fun _ => 0)
      (fun _ => ⟨0, 0⟩) [] [] (fun s => s) C1ev (by decide) (by decide)).2.2.1 0
      (by decide) (by decide),
   (claim_C10 1 C8tree C8snode DataLayout.kSparseData 0 (fun _ => 0)
      (fun _ => ⟨0, 0⟩) [] [] (fun s => s) C1ev (by decide) (by decide)).2.2.2⟩

end HistUpdater
